import Mathlib

/-
Verification of the karting racing-line optimizer.

Shallow embedding of the JavaScript source into Lean 4:
JS numbers are modelled as real numbers; the special value Infinity,
used by the source as a sentinel (radius of a straight, lap time of a
degenerate line), is modelled with Option (none = Infinity).  Logical
conditions on numbers become Props; `if` on them uses classical
decidability, so the development is noncomputable (Real.sqrt, Real.exp
and Real.sin already force this).  Math.random() is modelled by an
explicit stream `rand : Nat -> Real` together with a call counter that
the optimizer threads through every draw, in exact source order.
-/

noncomputable section

open Classical

/-- A 2-D point {x, y}, as used throughout the source. -/
structure Point where
  x : ℝ
  y : ℝ

instance : Inhabited Point := ⟨⟨0, 0⟩⟩

theorem Point.ext_xy {p q : Point} (hx : p.x = q.x) (hy : p.y = q.y) : p = q := by
  cases p; cases q; simp_all

/-- Math.hypot(a, b). -/
def hypot (a b : ℝ) : ℝ := Real.sqrt (a ^ 2 + b ^ 2)

/-- `distance(p1, p2)`: Euclidean distance (geometry kernel). -/
def distance (p1 p2 : Point) : ℝ :=
  Real.sqrt ((p2.x - p1.x) ^ 2 + (p2.y - p1.y) ^ 2)

theorem distance_nonneg (p1 p2 : Point) : 0 ≤ distance p1 p2 :=
  Real.sqrt_nonneg _

theorem distance_self (p : Point) : distance p p = 0 := by
  simp [distance]

/-- Distance of two points on a common horizontal is the absolute
x-difference. -/
theorem distance_of_y_eq (a b : Point) (h : a.y = b.y) :
    distance a b = |b.x - a.x| := by
  rw [distance, h]
  simpa using Real.sqrt_sq_eq_abs (b.x - a.x)

/-- Distance of two points on the x-axis is the absolute x-difference. -/
theorem distance_on_axis (a b : Point) (ha : a.y = 0) (hb : b.y = 0) :
    distance a b = |b.x - a.x| :=
  distance_of_y_eq a b (ha.trans hb.symm)

/-- `curvature(p1, p2, p3)`: 4 * Heron area / (a*b*c), 0 for a degenerate
side (source: part_000, lines 46-58). -/
def curvature (p1 p2 p3 : Point) : ℝ :=
  let a := distance p1 p2
  let b := distance p2 p3
  let c := distance p1 p3
  let s := (a + b + c) / 2
  let area := Real.sqrt (max 0 (s * (s - a) * (s - b) * (s - c)))
  if a = 0 ∨ b = 0 ∨ c = 0 then 0 else (4 * area) / (a * b * c)

/-- `radiusOfCurvature(p1, p2, p3)`: reciprocal of curvature; `none`
models the source's Infinity for zero curvature. -/
def radiusOfCurvature (p1 p2 p3 : Point) : Option ℝ :=
  let curv := curvature p1 p2 p3
  if curv = 0 then none else some (1 / curv)

/-- The `ccw` orientation test inside `segmentsIntersect`. -/
def ccw (a b c : Point) : Prop :=
  (c.y - a.y) * (b.x - a.x) > (b.y - a.y) * (c.x - a.x)

/-- `segmentsIntersect(p1, p2, p3, p4)` (source: part_000, lines 169-172);
JS `!==` on booleans is exclusive-or. -/
def segmentsIntersect (p1 p2 p3 p4 : Point) : Prop :=
  ¬(ccw p1 p3 p4 ↔ ccw p2 p3 p4) ∧ ¬(ccw p1 p2 p3 ↔ ccw p1 p2 p4)

/-- `trackSelfIntersects(points)`: some pair of segments (i, i+1), (j, j+1)
with j ≥ i + 2 and j + 1 < n intersects (source: part_000, lines 179-188). -/
def trackSelfIntersects (points : List Point) : Prop :=
  ∃ i j : ℕ, i + 2 ≤ j ∧ j + 1 < points.length ∧
    segmentsIntersect (points.getD i default) (points.getD (i + 1) default)
      (points.getD j default) (points.getD (j + 1) default)

/-- `trackLength(points)`: sum of consecutive distances. -/
def trackLength : List Point → ℝ
  | p1 :: p2 :: rest => distance p1 p2 + trackLength (p2 :: rest)
  | _ => 0

/-- The per-edge condition of the `pointInPolygon` ray-crossing loop, for
edge (vertex i, vertex j): JS
`((yi > y) !== (yj > y)) && (x < (xj - xi) * (y - yi) / (yj - yi) + xi)`. -/
def edgeCond (pt vi vj : Point) : Prop :=
  (¬((vi.y > pt.y) ↔ (vj.y > pt.y))) ∧
    pt.x < (vj.x - vi.x) * (pt.y - vi.y) / (vj.y - vi.y) + vi.x

/-- The vertex paired with index i in `pointInPolygon` is the previous
vertex (j = i - 1, wrapping to the last vertex for i = 0). -/
def prevVertices (polygon : List Point) : List Point :=
  match polygon.getLast? with
  | none => []
  | some q => q :: polygon.dropLast

/-- `pointInPolygon(point, polygon)`: even-odd rule; the parity flip of the
JS loop is folded with exclusive-or over the edges. -/
def pointInPolygon (pt : Point) (polygon : List Point) : Prop :=
  (polygon.zip (prevVertices polygon)).foldl
    (fun inside e => Xor' (edgeCond pt e.1 e.2) inside) False

/-- On a set of points all lying on the x-axis, every `ccw` test fails. -/
theorem ccw_yzero {a b c : Point} (ha : a.y = 0) (hb : b.y = 0) (hc : c.y = 0) :
    ¬ ccw a b c := by
  simp [ccw, ha, hb, hc]

/-- A polyline whose points all lie on the x-axis never self-intersects. -/
theorem trackSelfIntersects_yzero {pts : List Point}
    (h : ∀ p ∈ pts, p.y = 0) : ¬ trackSelfIntersects pts := by
  rintro ⟨i, j, -, hj, hint⟩
  have hy : ∀ k : ℕ, (pts.getD k default).y = 0 := by
    intro k
    by_cases hk : k < pts.length
    · rw [List.getD_eq_getElem _ _ hk]
      exact h _ (List.getElem_mem hk)
    · rw [List.getD_eq_getElem?_getD, List.getElem?_eq_none (le_of_not_lt hk)]
      rfl
  exact hint.1 (iff_of_false (ccw_yzero (hy _) (hy _) (hy _))
    (ccw_yzero (hy _) (hy _) (hy _)))

/-- A 2-point line never self-intersects (no admissible index pair). -/
theorem trackSelfIntersects_short {pts : List Point}
    (h : pts.length ≤ 2) : ¬ trackSelfIntersects pts := by
  rintro ⟨i, j, hij, hj, -⟩
  omega

/-- The `KartPhysics` class fields (source: part_002, lines 10-24). -/
structure KartPhysics where
  gripCoefficient : ℝ
  weightKg : ℝ
  maxAcceleration : ℝ
  maxBraking : ℝ
  maxDrivingSpeed : ℝ
  trackWidthM : ℝ
  gravity : ℝ

/-- The global physics instance `kart = new KartPhysics()` with the
constructor's values. -/
def kart : KartPhysics :=
  { gripCoefficient := 1.0
    weightKg := 180
    maxAcceleration := 8
    maxBraking := 10
    maxDrivingSpeed := 70
    trackWidthM := 6
    gravity := 9.81 }

/-- `maxCornerSpeed(radiusM)` (source: part_002, lines 34-45).  The radius
argument is `none` for the source's Infinity. -/
def KartPhysics.maxCornerSpeed (self : KartPhysics) (radiusM : Option ℝ) : ℝ :=
  match radiusM with
  | none => self.maxDrivingSpeed / 3.6
  | some r =>
    if r ≤ 0 then self.maxDrivingSpeed / 3.6
    else min (Real.sqrt (self.gripCoefficient * self.gravity * r))
      (self.maxDrivingSpeed / 3.6)

/-- A track segment as built by `calculateLapTime`: length, grip-limited
speed, radius, and the speed assigned after profiling. -/
structure Segment where
  length : ℝ
  maxSpeed : ℝ
  radius : Option ℝ
  speed : ℝ

instance : Inhabited Segment := ⟨⟨0, 0, none, 0⟩⟩

/-- Forward pass of `computeSpeedProfile` from a previous speed:
`min(maxSpeed, sqrt(prev^2 + 2*maxAcceleration*length))` per segment. -/
def forwardFrom (K : KartPhysics) (prev : ℝ) : List Segment → List ℝ
  | [] => []
  | s :: rest =>
    let v := min s.maxSpeed (Real.sqrt (prev ^ 2 + 2 * K.maxAcceleration * s.length))
    v :: forwardFrom K v rest

/-- Backward pass of `computeSpeedProfile` over (forward speed, length)
pairs, iterating from the end: each entry is capped by
`sqrt(next^2 + 2*maxBraking*length)` against the already-final next speed;
the last entry is untouched. -/
def backwardPass (K : KartPhysics) : List (ℝ × ℝ) → List ℝ
  | [] => []
  | [(v, _)] => [v]
  | (v, len) :: b :: rest =>
    let r := backwardPass K (b :: rest)
    min v (Real.sqrt ((r.headD 0) ^ 2 + 2 * K.maxBraking * len)) :: r

/-- `computeSpeedProfile(segments)` (source: part_002, lines 80-112):
speeds[0] = 0, acceleration-limited forward pass, then braking-limited
backward pass. -/
def KartPhysics.computeSpeedProfile (K : KartPhysics) (segments : List Segment) : List ℝ :=
  match segments with
  | [] => []
  | _ :: rest =>
    backwardPass K ((0 :: forwardFrom K 0 rest).zip (segments.map (·.length)))

/-- `estimateLapTime(segments)` (source: part_002, lines 143-153): sum of
length/speed, counting only segments with speed > 0. -/
def KartPhysics.estimateLapTime (K : KartPhysics) : List Segment → ℝ
  | [] => 0
  | s :: rest =>
    (if s.speed > 0 then s.length / s.speed else 0) + K.estimateLapTime rest

theorem backwardPass_length (K : KartPhysics) :
    ∀ l : List (ℝ × ℝ), (backwardPass K l).length = l.length
  | [] => rfl
  | [(v, _)] => rfl
  | (v, len) :: b :: rest => by
    simp [backwardPass, backwardPass_length K (b :: rest)]

theorem forwardFrom_length (K : KartPhysics) (prev : ℝ) :
    ∀ l : List Segment, (forwardFrom K prev l).length = l.length
  | [] => rfl
  | s :: rest => by
    simp [forwardFrom, forwardFrom_length K _ rest]

theorem computeSpeedProfile_length (K : KartPhysics) (segs : List Segment) :
    (K.computeSpeedProfile segs).length = segs.length := by
  match segs with
  | [] => rfl
  | s :: rest =>
    rw [KartPhysics.computeSpeedProfile, backwardPass_length, List.length_zip]
    simp [forwardFrom_length]

/-- The backward pass only lowers speeds: pointwise below the input. -/
theorem backwardPass_le (K : KartPhysics) :
    ∀ (l : List (ℝ × ℝ)) (i : ℕ) (h : i < (backwardPass K l).length),
      (backwardPass K l)[i] ≤ (l.map Prod.fst).getD i 0
  | [], i, h => by simp [backwardPass] at h
  | [(v, w)], i, h => by
    rw [backwardPass_length] at h
    cases i with
    | zero => simp [backwardPass]
    | succ n => exact absurd h (by simp)
  | (v, len) :: b :: rest, i, h => by
    cases i with
    | zero => simp [backwardPass]
    | succ n =>
      rw [backwardPass_length] at h
      have hh := backwardPass_le K (b :: rest) n (by
        rw [backwardPass_length]; simpa using Nat.lt_of_succ_lt_succ h)
      simpa [backwardPass] using hh

/-- Head of the backward pass is bounded by the head input speed. -/
theorem backwardPass_headD_le (K : KartPhysics) (v len : ℝ) (rest : List (ℝ × ℝ)) :
    (backwardPass K ((v, len) :: rest)).headD 0 ≤ v := by
  cases rest with
  | nil => simp [backwardPass]
  | cons b tl => simp [backwardPass]

/-- Head of the backward pass stays positive when the head input speed and
the braking term are positive. -/
theorem backwardPass_headD_pos (K : KartPhysics) (v len : ℝ) (rest : List (ℝ × ℝ))
    (hv : 0 < v) (hb : 0 < 2 * K.maxBraking * len) :
    0 < (backwardPass K ((v, len) :: rest)).headD 0 := by
  cases rest with
  | nil => simpa [backwardPass]
  | cons b tl =>
    simp only [backwardPass, List.headD_cons, lt_min_iff]
    exact ⟨hv, Real.sqrt_pos.2 (by positivity)⟩

/-- The backward pass keeps nonnegative inputs nonnegative. -/
theorem backwardPass_nonneg (K : KartPhysics) :
    ∀ (l : List (ℝ × ℝ)), (∀ p ∈ l, 0 ≤ p.1) →
      ∀ v ∈ backwardPass K l, 0 ≤ v
  | [], _, v, hv => by simp [backwardPass] at hv
  | [(w, len)], h, v, hv => by
    simp [backwardPass] at hv
    simpa [hv] using h (w, len) (by simp)
  | (w, len) :: b :: rest, h, v, hv => by
    rw [backwardPass] at hv
    rcases List.mem_cons.1 hv with rfl | hv'
    · exact le_min (h (w, len) (List.mem_cons_self _ _)) (Real.sqrt_nonneg _)
    · exact backwardPass_nonneg K (b :: rest)
        (fun p hp => h p (List.mem_cons_of_mem _ hp)) v hv'

/-- Forward-pass speeds are nonnegative when the grip limits are. -/
theorem forwardFrom_nonneg (K : KartPhysics) :
    ∀ (prev : ℝ) (l : List Segment), (∀ s ∈ l, 0 ≤ s.maxSpeed) →
      ∀ v ∈ forwardFrom K prev l, 0 ≤ v
  | _, [], _, v, hv => by simp [forwardFrom] at hv
  | prev, s :: rest, h, v, hv => by
    rw [forwardFrom] at hv
    rcases List.mem_cons.1 hv with rfl | hv'
    · exact le_min (h s (List.mem_cons_self _ _)) (Real.sqrt_nonneg _)
    · exact forwardFrom_nonneg K _ rest
        (fun u hu => h u (List.mem_cons_of_mem _ hu)) v hv'

/-- Forward-pass speeds never exceed the per-segment grip limit. -/
theorem forwardFrom_le_maxSpeed (K : KartPhysics) :
    ∀ (prev : ℝ) (l : List Segment) (i : ℕ),
      (forwardFrom K prev l).getD i 0 ≤ (l.getD i default).maxSpeed ∨
        l.length ≤ i
  | _, [], i => by right; simp
  | prev, s :: rest, 0 => by left; simp [forwardFrom]
  | prev, s :: rest, i + 1 => by
    rcases forwardFrom_le_maxSpeed K
        (min s.maxSpeed (Real.sqrt (prev ^ 2 + 2 * K.maxAcceleration * s.length)))
        rest i with h | h
    · left; simpa [forwardFrom] using h
    · right; simpa using h

/-- Every speed in the computed profile is nonnegative (given nonnegative
grip limits). -/
theorem computeSpeedProfile_nonneg (K : KartPhysics) (segs : List Segment)
    (hms : ∀ s ∈ segs, 0 ≤ s.maxSpeed) :
    ∀ v ∈ K.computeSpeedProfile segs, 0 ≤ v := by
  cases segs with
  | nil => simp [KartPhysics.computeSpeedProfile]
  | cons s₀ rest =>
    rw [KartPhysics.computeSpeedProfile]
    apply backwardPass_nonneg
    intro p hp
    have h1 := (List.of_mem_zip hp).1
    rcases List.mem_cons.1 h1 with h0 | hf
    · simp [h0]
    · exact forwardFrom_nonneg K 0 rest
        (fun u hu => hms u (List.mem_cons_of_mem _ hu)) _ hf

/-- Every speed in the computed profile is at most the corresponding
segment's grip-limited maxSpeed. -/
theorem computeSpeedProfile_getD_le (K : KartPhysics) (segs : List Segment)
    (hms : ∀ s ∈ segs, 0 ≤ s.maxSpeed) (i : ℕ) (hi : i < segs.length) :
    (K.computeSpeedProfile segs).getD i 0 ≤ (segs.getD i default).maxSpeed := by
  cases segs with
  | nil => simp at hi
  | cons s₀ rest =>
    rw [KartPhysics.computeSpeedProfile]
    have hlen : ((0 :: forwardFrom K 0 rest).zip ((s₀ :: rest).map (·.length))).length
        = rest.length + 1 := by
      simp [List.length_zip, forwardFrom_length]
    have hmap : ((0 :: forwardFrom K 0 rest).zip ((s₀ :: rest).map (·.length))).map
        Prod.fst = 0 :: forwardFrom K 0 rest := by
      apply List.map_fst_zip
      simp [forwardFrom_length]
    have hi' : i < (backwardPass K ((0 :: forwardFrom K 0 rest).zip
        ((s₀ :: rest).map (·.length)))).length := by
      rw [backwardPass_length, hlen]
      simpa using hi
    rw [List.getD_eq_getElem _ _ hi']
    refine le_trans (backwardPass_le K _ i hi') ?_
    rw [hmap]
    cases i with
    | zero => simpa using hms s₀ (List.mem_cons_self _ _)
    | succ j =>
      rcases forwardFrom_le_maxSpeed K 0 rest j with h | h
      · simpa using h
      · simp at hi; omega

/-- Shape of the profile for a single segment: just the standing start. -/
theorem computeSpeedProfile_single (K : KartPhysics) (s₀ : Segment) :
    K.computeSpeedProfile [s₀] = [0] := by
  simp [KartPhysics.computeSpeedProfile, forwardFrom, backwardPass]

/-- Shape of the profile for at least two segments: the head is the
standing start 0 and the tail is the backward pass from the first
forward-propagated speed. -/
theorem computeSpeedProfile_cons_cons (K : KartPhysics) (s₀ s₁ : Segment)
    (rest : List Segment) :
    K.computeSpeedProfile (s₀ :: s₁ :: rest) =
      0 :: backwardPass K
        ((min s₁.maxSpeed (Real.sqrt (0 ^ 2 + 2 * K.maxAcceleration * s₁.length)),
          s₁.length) ::
          ((forwardFrom K
            (min s₁.maxSpeed (Real.sqrt (0 ^ 2 + 2 * K.maxAcceleration * s₁.length)))
            rest).zip (rest.map (·.length)))) := by
  rw [KartPhysics.computeSpeedProfile, forwardFrom]
  simp only [List.map_cons, List.zip_cons_cons, backwardPass]
  rw [min_eq_left (Real.sqrt_nonneg _)]
  rfl

/-- The head of the profile of a nonempty segment list is 0 (standing
start, preserved by the backward pass). -/
theorem computeSpeedProfile_headD (K : KartPhysics) (s₀ : Segment)
    (rest : List Segment) :
    (K.computeSpeedProfile (s₀ :: rest)).headD 0 = 0 := by
  cases rest with
  | nil => rw [computeSpeedProfile_single]; rfl
  | cons s₁ tl => rw [computeSpeedProfile_cons_cons]; rfl

/-- Track data as consumed by the optimizer and scorer: a possibly-absent
list of forbidden boundary polygons and a possibly-absent reference
centerline.  A null/undefined `trackData` itself is `Option TrackData`
at the call sites. -/
structure TrackData where
  boundaries : Option (List (List Point))
  centerline : Option (List Point)

/-- `isPointInTrackBounds(point, trackData)` (source: part_001, lines
300-311): true when trackData or its boundaries are absent; otherwise the
point must lie inside none of the boundary polygons (a polygon hit means
out of bounds). -/
def isPointInTrackBounds (pt : Point) (trackData : Option TrackData) : Prop :=
  match trackData with
  | none => True
  | some td =>
    match td.boundaries with
    | none => True
    | some bs => ∀ b ∈ bs, ¬ pointInPolygon pt b

/-- The segment list built by `calculateLapTime` (source: part_001, lines
225-236): for each i, length = distance(p_i, p_{i+1}), radius from the
triple (p_i, p_{i+1}, p_{min(i+2, n-1)}) — the index clamp makes the third
point equal to p_{i+1} for the last segment — and the grip speed limit from
the global kart. -/
def segmentsOf : List Point → List Segment
  | p1 :: p2 :: p3 :: rest =>
    ⟨distance p1 p2, kart.maxCornerSpeed (radiusOfCurvature p1 p2 p3),
      radiusOfCurvature p1 p2 p3, 0⟩ :: segmentsOf (p2 :: p3 :: rest)
  | [p1, p2] =>
    [⟨distance p1 p2, kart.maxCornerSpeed (radiusOfCurvature p1 p2 p2),
      radiusOfCurvature p1 p2 p2, 0⟩]
  | _ => []

/-- `segments[i].speed = speeds[i] || segments[i].maxSpeed || 0.1`
(source: part_001, line 248): JS `||` falls through on the falsy 0. -/
def assignSpeeds (segs : List Segment) (speeds : List ℝ) : List Segment :=
  List.zipWith
    (fun s v =>
      { s with speed := if v ≠ 0 then v else if s.maxSpeed ≠ 0 then s.maxSpeed else 0.1 })
    segs speeds

/-- The lap-time computation of `calculateLapTime` for a line with at
least 2 points: build segments, profile them, assign speeds, estimate. -/
def lapTimeCore (line : List Point) : ℝ :=
  kart.estimateLapTime
    (assignSpeeds (segmentsOf line) (kart.computeSpeedProfile (segmentsOf line)))

/-- `calculateLapTime(racingLine, trackData)` (source: part_001, lines
221-250).  `none` models the JS `Infinity` returned for a line with fewer
than 2 points; otherwise the computation always produces a real number.
The `trackData` argument is unused by the source body.  The source's
try/catch around `computeSpeedProfile` is dead in the embedding because
the profile computation is total. -/
def calculateLapTime (racingLine : List Point) (_trackData : Option TrackData) :
    Option ℝ :=
  if racingLine.length < 2 then none else some (lapTimeCore racingLine)

/-- The smoothness penalty loop of `scoreLine`: over each interior triple,
squared inverse radius, guarding radius 0 and Infinity. -/
def smoothPenalty : List Point → ℝ
  | p1 :: p2 :: p3 :: rest =>
    (match radiusOfCurvature p1 p2 p3 with
      | none => 0
      | some r => if r = 0 then 0 else 1 / max 1e-3 |r|) ^ 2
      + smoothPenalty (p2 :: p3 :: rest)
  | _ => 0

/-- Nearest-centerline distance: JS starts from Infinity and folds `min`
over all centerline points; with a nonempty centerline that equals folding
from the first distance. -/
def nearestDist (pt : Point) (c : Point) (cs : List Point) : ℝ :=
  cs.foldl (fun acc q => min acc (distance pt q)) (distance pt c)

/-- The deviation penalty of `scoreLine`: mean squared nearest-centerline
distance, 0 when no (nonempty) centerline is supplied. -/
def devPenalty (line : List Point) (trackData : Option TrackData) : ℝ :=
  match trackData with
  | none => 0
  | some td =>
    match td.centerline with
    | some (c :: cs) =>
      (line.foldl (fun acc pt => acc + nearestDist pt c cs ^ 2) 0) / line.length
    | _ => 0

/-- `scoreLine(racingLine, trackData)` (source: part_001, lines 255-292):
1e9 sentinel for a short, self-intersecting, or out-of-bounds line;
otherwise lap time plus weighted smoothness and deviation penalties.
In the non-sentinel branch the line has ≥ 2 points, where
`calculateLapTime` is `some (lapTimeCore line)`. -/
def scoreLine (racingLine : List Point) (trackData : Option TrackData) : ℝ :=
  if racingLine.length < 2 then 1e9
  else if trackSelfIntersects racingLine then 1e9
  else if ∃ pt ∈ racingLine, ¬ isPointInTrackBounds pt trackData then 1e9
  else lapTimeCore racingLine + 0.15 * smoothPenalty racingLine
    + 0.001 * devPenalty racingLine trackData

/-- The validation-error labels of `validateRacingLine`. -/
inductive VError where
  | tooShort : VError
  | outOfBounds : ℕ → VError
  | selfIntersects : VError
deriving DecidableEq

/-- `validateRacingLine(racingLine, trackData)` (source: part_001, lines
347-371), as its error list; the source's `valid` flag is `errors = []`. -/
def validateRacingLine (racingLine : List Point) (trackData : Option TrackData) :
    List VError :=
  if racingLine.length < 2 then [VError.tooShort]
  else
    ((List.range racingLine.length).filter
        (fun i => ¬ isPointInTrackBounds (racingLine.getD i default) trackData)).map
      VError.outOfBounds
    ++ (if trackSelfIntersects racingLine then [VError.selfIntersects] else [])

/-- Math.atan2(y, x), via the complex argument (range (-pi, pi]). -/
def jsAtan2 (y x : ℝ) : ℝ := Complex.arg ⟨x, y⟩

/-- `initialHeuristicLine(centerline)` (source: part_001, lines 13-57):
outside-apex-outside offset of each centerline point, perpendicular to the
local tangent, by sin(|angle|/2) * trackWidth on the side opposite the
turn.  Lines with fewer than 3 points are returned unchanged. -/
def initialHeuristicLine (centerline : List Point) : List Point :=
  if centerline.length < 3 then centerline
  else
    (List.range centerline.length).map fun i =>
      let p1 := centerline.getD (i - 1) default
      let p2 := centerline.getD i default
      let p3 := centerline.getD (min (centerline.length - 1) (i + 1)) default
      let v1x := p1.x - p2.x
      let v1y := p1.y - p2.y
      let v2x := p3.x - p2.x
      let v2y := p3.y - p2.y
      let cross := v1x * v2y - v1y * v2x
      let angleRad := jsAtan2 cross (v1x * v2x + v1y * v2y)
      let offsetAmount := Real.sin (|angleRad| / 2) * 3
      let len := Real.sqrt ((-v2y) ^ 2 + v2x ^ 2)
      let dirx := if len > 0 then -v2y / len else -v2y
      let diry := if len > 0 then v2x / len else v2x
      let sign : ℝ := if cross > 0 then 1 else -1
      ⟨p2.x + dirx * offsetAmount * sign, p2.y + diry * offsetAmount * sign⟩

/-- One sweep of `smoothLocal`'s interior loop.  The JS updates in place,
so each interior point is averaged with the already-updated previous point
and the not-yet-updated next point; endpoints are untouched. -/
def smoothOnce (prev : Point) : List Point → List Point
  | cur :: next :: rest =>
    let pt : Point := ⟨(prev.x + cur.x * 2 + next.x) / 4, (prev.y + cur.y * 2 + next.y) / 4⟩
    pt :: smoothOnce pt (next :: rest)
  | l => l

/-- One full pass of `smoothLocal` (keeps the first point). -/
def smoothLocalPass (line : List Point) : List Point :=
  match line with
  | [] => []
  | a :: rest => a :: smoothOnce a rest

/-- `smoothLocal(line, iterations)` (source: part_001, lines 145-159). -/
def smoothLocal (line : List Point) (iterations : ℕ) : List Point :=
  smoothLocalPass^[iterations] line

/-- The Catmull-Rom evaluation inside `smoothLine`. -/
def catmullRom (p0 p1 p2 p3 : Point) (t : ℝ) : Point :=
  ⟨0.5 * ((2 * p1.x) + (-p0.x + p2.x) * t + (2 * p0.x - 5 * p1.x + 4 * p2.x - p3.x) * t ^ 2
      + (-p0.x + 3 * p1.x - 3 * p2.x + p3.x) * t ^ 3),
    0.5 * ((2 * p1.y) + (-p0.y + p2.y) * t + (2 * p0.y - 5 * p1.y + 4 * p2.y - p3.y) * t ^ 2
      + (-p0.y + 3 * p1.y - 3 * p2.y + p3.y) * t ^ 3)⟩

/-- The duplicate-avoiding push of `smoothLine`: append unless within 0.1
of the last kept sample. -/
def dedupPush (out : List Point) (pt : Point) : List Point :=
  match out.getLast? with
  | none => [pt]
  | some q => if hypot (q.x - pt.x) (q.y - pt.y) > 0.1 then out ++ [pt] else out

/-- The sample at segment i, step s, of `smoothLine`'s resampling: control
points clamped at the ends (the ℕ subtraction `i - 1` is exactly the JS
`i === 0 ? racingLine[i] : racingLine[i - 1]` clamp). -/
def smoothSample (pts : List Point) (spp i s : ℕ) : Point :=
  let p0 := pts.getD (i - 1) default
  let p1 := pts.getD i default
  let p2 := pts.getD (i + 1) default
  let p3 := if i + 2 < pts.length then pts.getD (i + 2) default else pts.getD (i + 1) default
  catmullRom p0 p1 p2 p3 ((s : ℝ) / spp)

/-- `smoothLine(racingLine, iterations)` (source: part_001, lines 169-211):
Catmull-Rom resampling at 6*max(1, iterations) samples per segment, with
near-duplicate samples dropped, and the exact final input point appended. -/
def smoothLine (racingLine : List Point) (iterations : ℕ) : List Point :=
  if racingLine.length < 3 then racingLine
  else
    let spp := 6 * max 1 iterations
    let samples := (List.range (racingLine.length - 1)).flatMap fun i =>
      (List.range spp).map fun s => smoothSample racingLine spp i s
    samples.foldl dedupPush [] ++ [racingLine.getD (racingLine.length - 1) default]

/-- The mutable state of the annealing loop: the last-accepted candidate
(the source calls it `best`), its score, and the Math.random() call
counter. -/
structure AnnealState where
  best : List Point
  bestScore : ℝ
  ctr : ℕ

/-- One step of the perturbation loop of `optimizeLine` (source: part_001,
lines 91-123).  State: (candidate, random counter).  Draw order matches
the source: index first (a guard failure skips the dx/dy draws), then dx,
then dy. -/
def perturbStep (trackData : Option TrackData) (rand : ℕ → ℝ) (fixedEnd : ℤ)
    (t : ℝ) (st : List Point × ℕ) (_p : ℕ) : List Point × ℕ :=
  let cand := st.1
  let n := st.2
  let i : ℤ := 1 + ⌊rand n * ((cand.length : ℝ) - 2)⌋
  if i ≤ 0 ∨ fixedEnd ≤ i then (cand, n + 1)
  else
    let a := cand.getD (max 0 (i - 1)).toNat default
    let b := cand.getD i.toNat default
    let c := cand.getD (min ((cand.length : ℤ) - 1) (i + 1)).toNat default
    let segLen := max 1e-3 ((distance a b + distance b c) / 2)
    let tx := c.x - a.x
    let ty := c.y - a.y
    let h := hypot tx ty
    let tlen := if h = 0 then 1 else h
    let nx := -ty / tlen
    let ny := tx / tlen
    let mag := segLen * (0.1 + 4 * t)
    let dx := (rand (n + 1) - 0.5) * mag
    let dy := (rand (n + 2) - 0.5) * (mag * 0.5)
    let prop : Point := ⟨b.x + tx / tlen * dx + nx * dy, b.y + ty / tlen * dx + ny * dy⟩
    if ¬ isPointInTrackBounds prop trackData then (cand, n + 3)
    else if hypot (prop.x - b.x) (prop.y - b.y) > segLen * 2 then (cand, n + 3)
    else (cand.set i.toNat prop, n + 3)

/-- One iteration of the annealing loop of `optimizeLine` (source:
part_001, lines 84-135): cooling temperature, perturbation proposals,
light local smoothing, scoring, and Metropolis acceptance (the uphill
random draw is short-circuited away when the score improves). -/
def annealStep (trackData : Option TrackData) (rand : ℕ → ℝ) (iters : ℕ)
    (fixedEnd : ℤ) (st : AnnealState) (k : ℕ) : AnnealState :=
  let t : ℝ := 1.0 * ((1e-4 : ℝ) / 1.0) ^ ((k : ℝ) / (max 1 (iters - 1) : ℕ))
  let nPerturb : ℤ := 1 + ⌊3 * t * rand st.ctr⌋
  let inner := (List.range nPerturb.toNat).foldl
    (perturbStep trackData rand fixedEnd t) (st.best, st.ctr + 1)
  let smoothCandidate := smoothLocal inner.1 1
  let score := scoreLine smoothCandidate trackData
  let delta := score - st.bestScore
  if delta < 0 then ⟨smoothCandidate, score, inner.2⟩
  else if Real.exp (-delta / max t 1e-9) > rand inner.2 then
    ⟨smoothCandidate, score, inner.2 + 1⟩
  else ⟨st.best, st.bestScore, inner.2 + 1⟩

/-- The whole annealing loop of `optimizeLine`: max(40, iterations) steps
from the input line. -/
def annealLoop (racingLine : List Point) (trackData : Option TrackData)
    (iterations : ℕ) (rand : ℕ → ℝ) : AnnealState :=
  (List.range (max 40 iterations)).foldl
    (annealStep trackData rand (max 40 iterations) ((racingLine.length : ℤ) - 1))
    ⟨racingLine, scoreLine racingLine trackData, 0⟩

/-- `optimizeLine(racingLine, trackData, iterations)` (source: part_001,
lines 68-140), with the ambient Math.random() stream made explicit: lines
with fewer than 3 points are returned unchanged; otherwise the annealing
loop runs and the last-accepted candidate gets a final
`smoothLine(best, 3)` pass. -/
def optimizeLine (racingLine : List Point) (trackData : Option TrackData)
    (iterations : ℕ) (rand : ℕ → ℝ) : List Point :=
  if racingLine.length < 3 then racingLine
  else smoothLine (annealLoop racingLine trackData iterations rand).best 3

/-- Nullable-argument surface of `initialHeuristicLine`: JS `!centerline`
returns the null/undefined input unchanged. -/
def initialHeuristicLineN (centerline : Option (List Point)) : Option (List Point) :=
  centerline.map initialHeuristicLine

/-- Nullable-argument surface of `optimizeLine`. -/
def optimizeLineN (racingLine : Option (List Point)) (trackData : Option TrackData)
    (iterations : ℕ) (rand : ℕ → ℝ) : Option (List Point) :=
  racingLine.map (optimizeLine · trackData iterations rand)

/-- Nullable-argument surface of `smoothLine`. -/
def smoothLineN (racingLine : Option (List Point)) (iterations : ℕ) :
    Option (List Point) :=
  racingLine.map (smoothLine · iterations)

/-- Heron's product under the square root of `curvature` vanishes when the
three points are collinear (zero 2-D cross product): the product of the
four factors (a+b+c)(-a+b+c)(a-b+c)(a+b-c) is a polynomial in the squared
side lengths, equal to four times the squared cross product. -/
theorem heron_area_zero (p1 p2 p3 : Point)
    (h : (p2.x - p1.x) * (p3.y - p1.y) - (p2.y - p1.y) * (p3.x - p1.x) = 0) :
    Real.sqrt (max 0
      (((distance p1 p2 + distance p2 p3 + distance p1 p3) / 2)
        * (((distance p1 p2 + distance p2 p3 + distance p1 p3) / 2) - distance p1 p2)
        * (((distance p1 p2 + distance p2 p3 + distance p1 p3) / 2) - distance p2 p3)
        * (((distance p1 p2 + distance p2 p3 + distance p1 p3) / 2) - distance p1 p3)))
      = 0 := by
  have ha2 : distance p1 p2 ^ 2 = (p2.x - p1.x) ^ 2 + (p2.y - p1.y) ^ 2 :=
    Real.sq_sqrt (by positivity)
  have hb2 : distance p2 p3 ^ 2 = (p3.x - p2.x) ^ 2 + (p3.y - p2.y) ^ 2 :=
    Real.sq_sqrt (by positivity)
  have hc2 : distance p1 p3 ^ 2 = (p3.x - p1.x) ^ 2 + (p3.y - p1.y) ^ 2 :=
    Real.sq_sqrt (by positivity)
  have hprod : ((distance p1 p2 + distance p2 p3 + distance p1 p3) / 2)
        * (((distance p1 p2 + distance p2 p3 + distance p1 p3) / 2) - distance p1 p2)
        * (((distance p1 p2 + distance p2 p3 + distance p1 p3) / 2) - distance p2 p3)
        * (((distance p1 p2 + distance p2 p3 + distance p1 p3) / 2) - distance p1 p3)
      = (4 * (distance p2 p3 ^ 2) * (distance p1 p3 ^ 2)
          - ((distance p2 p3 ^ 2) + (distance p1 p3 ^ 2) - (distance p1 p2 ^ 2)) ^ 2)
        / 16 := by
    ring
  have hcross : (4 * (distance p2 p3 ^ 2) * (distance p1 p3 ^ 2)
      - ((distance p2 p3 ^ 2) + (distance p1 p3 ^ 2) - (distance p1 p2 ^ 2)) ^ 2)
      = 4 * ((p2.x - p1.x) * (p3.y - p1.y) - (p2.y - p1.y) * (p3.x - p1.x)) ^ 2 := by
    rw [ha2, hb2, hc2]; ring
  rw [hprod, hcross, h]
  norm_num

/-- Curvature vanishes on a degenerate (zero-side) triple. -/
theorem curvature_of_side_zero (p1 p2 p3 : Point)
    (h : distance p1 p2 = 0 ∨ distance p2 p3 = 0 ∨ distance p1 p3 = 0) :
    curvature p1 p2 p3 = 0 := by
  rw [curvature]
  simp only [h, if_true]

/-- Curvature vanishes on a collinear triple (zero 2-D cross product). -/
theorem curvature_of_cross_zero (p1 p2 p3 : Point)
    (h : (p2.x - p1.x) * (p3.y - p1.y) - (p2.y - p1.y) * (p3.x - p1.x) = 0) :
    curvature p1 p2 p3 = 0 := by
  rw [curvature]
  by_cases hz : distance p1 p2 = 0 ∨ distance p2 p3 = 0 ∨ distance p1 p3 = 0
  · simp only [hz, if_true]
  · simp only [hz, if_false]
    rw [heron_area_zero p1 p2 p3 h]
    ring

/-- The radius of a zero-curvature triple is the infinite sentinel. -/
theorem radiusOfCurvature_of_zero (p1 p2 p3 : Point)
    (h : curvature p1 p2 p3 = 0) : radiusOfCurvature p1 p2 p3 = none := by
  rw [radiusOfCurvature, if_pos h]

/-- The radius of a triple with repeated last point (the clamp at the end
of a line) is the infinite sentinel. -/
theorem radiusOfCurvature_self (p1 p2 : Point) :
    radiusOfCurvature p1 p2 p2 = none :=
  radiusOfCurvature_of_zero _ _ _
    (curvature_of_side_zero _ _ _ (Or.inr (Or.inl (distance_self p2))))

/-- The radius of a triple on a common horizontal is the infinite
sentinel. -/
theorem radiusOfCurvature_of_y_eq (p1 p2 p3 : Point)
    (h12 : p1.y = p2.y) (h13 : p1.y = p3.y) :
    radiusOfCurvature p1 p2 p3 = none := by
  refine radiusOfCurvature_of_zero _ _ _ (curvature_of_cross_zero _ _ _ ?_)
  rw [← h12, ← h13]
  ring

/-- C7: `radiusOfCurvature` is the reciprocal of `curvature` whenever the
curvature is nonzero; collinear triples have curvature exactly 0, triples
with a zero side length have curvature 0, and zero curvature is reported
as the infinite radius (`none`), never as a division-by-zero fault. -/
theorem C7_radius_reciprocal_of_curvature (p1 p2 p3 : Point) :
    (curvature p1 p2 p3 ≠ 0 →
      radiusOfCurvature p1 p2 p3 = some (1 / curvature p1 p2 p3)) ∧
    ((p2.x - p1.x) * (p3.y - p1.y) - (p2.y - p1.y) * (p3.x - p1.x) = 0 →
      curvature p1 p2 p3 = 0) ∧
    (distance p1 p2 = 0 ∨ distance p2 p3 = 0 ∨ distance p1 p3 = 0 →
      curvature p1 p2 p3 = 0) ∧
    (curvature p1 p2 p3 = 0 → radiusOfCurvature p1 p2 p3 = none) := by
  exact ⟨fun h => by rw [radiusOfCurvature, if_neg h],
    curvature_of_cross_zero p1 p2 p3, curvature_of_side_zero p1 p2 p3,
    radiusOfCurvature_of_zero p1 p2 p3⟩

/-- Witness for C7 at the collinear triple (0,0), (1,0), (2,0). -/
theorem C7_witness :
    curvature ⟨0, 0⟩ ⟨1, 0⟩ ⟨2, 0⟩ = 0 ∧
      radiusOfCurvature ⟨0, 0⟩ ⟨1, 0⟩ ⟨2, 0⟩ = none := by
  have h1 := (C7_radius_reciprocal_of_curvature ⟨0, 0⟩ ⟨1, 0⟩ ⟨2, 0⟩).2.1 (by norm_num)
  exact ⟨h1, (C7_radius_reciprocal_of_curvature ⟨0, 0⟩ ⟨1, 0⟩ ⟨2, 0⟩).2.2.2 h1⟩

/-- C2: the speed profile has the same length as the segment list and each
value lies between 0 and the corresponding grip-limited maxSpeed.  The
nonnegative-acceleration/braking hypotheses keep the embedding inside the
region where JS Math.sqrt agrees with the real square root; the global
`kart` satisfies them. -/
theorem C2_computeSpeedProfile_bounds (K : KartPhysics) (segs : List Segment)
    (_hK : 0 ≤ K.maxAcceleration ∧ 0 ≤ K.maxBraking)
    (h : ∀ s ∈ segs, 0 ≤ s.length ∧ 0 ≤ s.maxSpeed) :
    (K.computeSpeedProfile segs).length = segs.length ∧
    ∀ i, i < segs.length →
      0 ≤ (K.computeSpeedProfile segs).getD i 0 ∧
      (K.computeSpeedProfile segs).getD i 0 ≤ (segs.getD i default).maxSpeed := by
  refine ⟨computeSpeedProfile_length K segs, fun i hi => ⟨?_, ?_⟩⟩
  · have hi' : i < (K.computeSpeedProfile segs).length := by
      rw [computeSpeedProfile_length]; exact hi
    rw [List.getD_eq_getElem _ _ hi']
    exact computeSpeedProfile_nonneg K segs (fun s hs => (h s hs).2) _
      (List.getElem_mem hi')
  · exact computeSpeedProfile_getD_le K segs (fun s hs => (h s hs).2) i hi

/-- Witness for C2 on a concrete two-segment list. -/
theorem C2_witness :
    (kart.computeSpeedProfile [⟨10, 5, none, 0⟩, ⟨20, 7, none, 0⟩]).length = 2 ∧
      0 ≤ (kart.computeSpeedProfile [⟨10, 5, none, 0⟩, ⟨20, 7, none, 0⟩]).getD 1 0 ∧
      (kart.computeSpeedProfile [⟨10, 5, none, 0⟩, ⟨20, 7, none, 0⟩]).getD 1 0 ≤ 7 := by
  have h := C2_computeSpeedProfile_bounds kart [⟨10, 5, none, 0⟩, ⟨20, 7, none, 0⟩]
    (by constructor <;> norm_num [kart])
    (by
      intro s hs
      simp only [List.mem_cons, List.not_mem_nil, or_false] at hs
      rcases hs with rfl | rfl <;> constructor <;> norm_num)
  exact ⟨h.1, (h.2 1 (by norm_num)).1, by
    have := (h.2 1 (by norm_num)).2
    simpa using this⟩

/-- C3 counterexample: `maxCornerSpeed` is not monotone in radius on its
full domain.  A negative radius takes the non-positive branch and returns
the full cap 70/3.6 m/s, while the small positive radius 100/981 returns
sqrt(1.0 * 9.81 * 100/981) = 1 m/s. -/
theorem C3_counterexample :
    (-1 : ℝ) ≤ 100 / 981 ∧
      kart.maxCornerSpeed (some (100 / 981)) < kart.maxCornerSpeed (some (-1)) := by
  constructor
  · norm_num
  · rw [KartPhysics.maxCornerSpeed, KartPhysics.maxCornerSpeed]
    rw [if_pos (by norm_num : (-1 : ℝ) ≤ 0), if_neg (by norm_num : ¬((100 : ℝ) / 981 ≤ 0))]
    have h1 : kart.gripCoefficient * kart.gravity * (100 / 981) = 1 := by
      norm_num [kart]
    rw [h1, Real.sqrt_one]
    rw [min_eq_left (by norm_num [kart])]
    norm_num [kart]

/-- C3 amended: `maxCornerSpeed` is monotone non-decreasing in radius over
positive radii with the infinite radius as maximum (monotonicity fails
across the non-positive branch, which returns the cap); it is monotone
non-decreasing in grip (for nonnegative grip and gravity); it never
exceeds the configured cap maxDrivingSpeed/3.6; and it equals the cap
exactly for non-positive or infinite radius. -/
theorem C3_amended :
    (∀ (K : KartPhysics) (r₁ r₂ : ℝ), 0 ≤ K.gripCoefficient → 0 ≤ K.gravity →
      0 < r₁ → r₁ ≤ r₂ →
      K.maxCornerSpeed (some r₁) ≤ K.maxCornerSpeed (some r₂)) ∧
    (∀ (K : KartPhysics) (r : ℝ), K.maxCornerSpeed (some r) ≤ K.maxCornerSpeed none) ∧
    (∀ (K : KartPhysics) (g₁ g₂ : ℝ) (r : Option ℝ), 0 ≤ g₁ → g₁ ≤ g₂ →
      0 ≤ K.gravity →
      ({ K with gripCoefficient := g₁ } : KartPhysics).maxCornerSpeed r ≤
        ({ K with gripCoefficient := g₂ } : KartPhysics).maxCornerSpeed r) ∧
    (∀ (K : KartPhysics) (r : Option ℝ),
      K.maxCornerSpeed r ≤ K.maxDrivingSpeed / 3.6) ∧
    (∀ (K : KartPhysics) (r : ℝ), r ≤ 0 →
      K.maxCornerSpeed (some r) = K.maxDrivingSpeed / 3.6) ∧
    (∀ K : KartPhysics, K.maxCornerSpeed none = K.maxDrivingSpeed / 3.6) := by
  refine ⟨?_, ?_, ?_, ?_, ?_, ?_⟩
  · intro K r₁ r₂ hgrip hgrav h1 h12
    rw [KartPhysics.maxCornerSpeed, KartPhysics.maxCornerSpeed,
      if_neg (not_le.2 h1), if_neg (not_le.2 (lt_of_lt_of_le h1 h12))]
    refine min_le_min (Real.sqrt_le_sqrt ?_) le_rfl
    exact mul_le_mul_of_nonneg_left h12 (mul_nonneg hgrip hgrav)
  · intro K r
    rw [KartPhysics.maxCornerSpeed, KartPhysics.maxCornerSpeed]
    by_cases hr : r ≤ 0
    · rw [if_pos hr]
    · rw [if_neg hr]; exact min_le_right _ _
  · intro K g₁ g₂ r hg1 hg12 hgrav
    match r with
    | none => exact le_rfl
    | some x =>
      rw [KartPhysics.maxCornerSpeed, KartPhysics.maxCornerSpeed]
      by_cases hx : x ≤ 0
      · rw [if_pos hx, if_pos hx]
      · rw [if_neg hx, if_neg hx]
        refine min_le_min (Real.sqrt_le_sqrt ?_) le_rfl
        have hx' : 0 ≤ x := le_of_lt (not_le.1 hx)
        exact mul_le_mul_of_nonneg_right
          (mul_le_mul_of_nonneg_right hg12 hgrav) hx'
  · intro K r
    match r with
    | none => exact le_rfl
    | some x =>
      rw [KartPhysics.maxCornerSpeed]
      by_cases hx : x ≤ 0
      · rw [if_pos hx]
      · rw [if_neg hx]; exact min_le_right _ _
  · intro K r hr
    rw [KartPhysics.maxCornerSpeed, if_pos hr]
  · intro K
    rfl

/-- Witness for C3 (amended) at the default kart with radii 1 and 2. -/
theorem C3_witness :
    kart.maxCornerSpeed (some 1) ≤ kart.maxCornerSpeed (some 2) ∧
      kart.maxCornerSpeed none = kart.maxDrivingSpeed / 3.6 := by
  exact ⟨C3_amended.1 kart 1 2 (by norm_num [kart]) (by norm_num [kart])
    (by norm_num) (by norm_num), C3_amended.2.2.2.2.2 kart⟩

/-- C9: with a null trackData or one without boundaries,
`isPointInTrackBounds` holds for every point; consequently `scoreLine`
takes its non-sentinel branch whenever the line is long enough and does
not self-intersect, and `validateRacingLine` never reports an
out-of-bounds error. -/
theorem C9_absent_boundaries (td : Option TrackData)
    (h : td = none ∨ ∃ t, td = some t ∧ t.boundaries = none) :
    (∀ pt, isPointInTrackBounds pt td) ∧
    (∀ line : List Point, ¬ line.length < 2 → ¬ trackSelfIntersects line →
      scoreLine line td = lapTimeCore line + 0.15 * smoothPenalty line
        + 0.001 * devPenalty line td) ∧
    (∀ (line : List Point) (i : ℕ),
      VError.outOfBounds i ∉ validateRacingLine line td) := by
  have hb : ∀ pt, isPointInTrackBounds pt td := by
    intro pt
    rcases h with rfl | ⟨t, rfl, ht⟩
    · trivial
    · rw [isPointInTrackBounds, ht]
      trivial
  refine ⟨hb, fun line h2 hsi => ?_, fun line i => ?_⟩
  · rw [scoreLine, if_neg h2, if_neg hsi, if_neg]
    push_neg
    intro pt _
    exact hb pt
  · rw [validateRacingLine]
    by_cases h2 : line.length < 2
    · rw [if_pos h2]
      simp
    · rw [if_neg h2]
      intro hmem
      rcases List.mem_append.1 hmem with hmem | hmem
      · rcases List.mem_map.1 hmem with ⟨j, hj, -⟩
        exact absurd (hb (line.getD j default))
          (of_decide_eq_true (List.mem_filter.1 hj).2)
      · by_cases hsi : trackSelfIntersects line
        · rw [if_pos hsi] at hmem
          simp at hmem
        · rw [if_neg hsi] at hmem
          simp at hmem

/-- Witness for C9 at a null trackData. -/
theorem C9_witness :
    isPointInTrackBounds ⟨5, 7⟩ none ∧
      VError.outOfBounds 0 ∉ validateRacingLine [⟨0, 0⟩] none := by
  exact ⟨(C9_absent_boundaries none (Or.inl rfl)).1 ⟨5, 7⟩,
    (C9_absent_boundaries none (Or.inl rfl)).2.2 [⟨0, 0⟩] 0⟩

/-- C10: a null/undefined input or one with fewer than 3 points is
returned unchanged (same value, nothing modified, no failure encoded) by
`initialHeuristicLine`, `optimizeLine` and `smoothLine`. -/
theorem C10_short_inputs_unchanged (td : Option TrackData) (iters : ℕ)
    (rand : ℕ → ℝ) :
    (initialHeuristicLineN none = none ∧ optimizeLineN none td iters rand = none ∧
      smoothLineN none iters = none) ∧
    (∀ l : List Point, l.length < 3 →
      initialHeuristicLine l = l ∧ optimizeLine l td iters rand = l ∧
        smoothLine l iters = l) := by
  refine ⟨⟨rfl, rfl, rfl⟩, fun l h3 => ⟨?_, ?_, ?_⟩⟩
  · rw [initialHeuristicLine, if_pos h3]
  · rw [optimizeLine, if_pos h3]
  · rw [smoothLine, if_pos h3]

/-- Witness for C10 on a concrete 1-point line. -/
theorem C10_witness :
    initialHeuristicLine [⟨1, 2⟩] = [⟨1, 2⟩] ∧
      optimizeLine [⟨1, 2⟩] none 30 (fun _ => 0) = [⟨1, 2⟩] ∧
      smoothLine [⟨1, 2⟩] 3 = [⟨1, 2⟩] :=
  (C10_short_inputs_unchanged none 30 (fun _ => 0)).2 [⟨1, 2⟩] (by norm_num)

/-- C5 amended: `estimateLapTime` gives a zero-speed segment a zero time
contribution (no division-by-zero), but a zero entry in the computed speed
profile does not make `calculateLapTime` report the infinite sentinel —
the zero is replaced by the segment's maxSpeed (or 0.1); the infinite
sentinel (`none`) is returned exactly for lines with fewer than 2
points. -/
theorem C5_amended (K : KartPhysics) :
    (∀ (s : Segment) (rest : List Segment), s.speed = 0 →
      K.estimateLapTime (s :: rest) = K.estimateLapTime rest) ∧
    (∀ (line : List Point) (td : Option TrackData),
      calculateLapTime line td = none ↔ line.length < 2) := by
  constructor
  · intro s rest hs
    rw [KartPhysics.estimateLapTime, hs]
    norm_num
  · intro line td
    rw [calculateLapTime]
    by_cases h : line.length < 2
    · simp [h]
    · simp [h]

/-- Witness for C5 (amended): a zero-speed segment contributes nothing,
and the 2-point threshold drives the infinite sentinel. -/
theorem C5_witness :
    kart.estimateLapTime [⟨10, 5, none, 0⟩] = kart.estimateLapTime [] ∧
      (calculateLapTime [⟨0, 0⟩] none = none ↔ ([⟨0, 0⟩] : List Point).length < 2) :=
  ⟨(C5_amended kart).1 ⟨10, 5, none, 0⟩ [] rfl, (C5_amended kart).2 [⟨0, 0⟩] none⟩

/-- C5 counterexample: for the straight 3-point line below the computed
speed profile contains the standing-start 0, yet `calculateLapTime` does
not report the infinite sentinel. -/
theorem C5_counterexample :
    (0 : ℝ) ∈ kart.computeSpeedProfile (segmentsOf [⟨0, 0⟩, ⟨10, 0⟩, ⟨20, 0⟩]) ∧
      calculateLapTime [⟨0, 0⟩, ⟨10, 0⟩, ⟨20, 0⟩] none ≠ none := by
  constructor
  · have hseg : segmentsOf [(⟨0, 0⟩ : Point), ⟨10, 0⟩, ⟨20, 0⟩] =
        [⟨distance ⟨0, 0⟩ ⟨10, 0⟩,
            kart.maxCornerSpeed (radiusOfCurvature ⟨0, 0⟩ ⟨10, 0⟩ ⟨20, 0⟩),
            radiusOfCurvature ⟨0, 0⟩ ⟨10, 0⟩ ⟨20, 0⟩, 0⟩,
          ⟨distance ⟨10, 0⟩ ⟨20, 0⟩,
            kart.maxCornerSpeed (radiusOfCurvature ⟨10, 0⟩ ⟨20, 0⟩ ⟨20, 0⟩),
            radiusOfCurvature ⟨10, 0⟩ ⟨20, 0⟩ ⟨20, 0⟩, 0⟩] := rfl
    rw [hseg, computeSpeedProfile_cons_cons]
    exact List.mem_cons_self _ _
  · rw [calculateLapTime, if_neg (by norm_num)]
    simp

/-- C4 amended: `scoreLine` returns the 1e9 sentinel for fewer than 2
points, for self-intersection (in particular the crossing 4-point line
(0,0),(10,10),(10,0),(0,10)), and when some point lies INSIDE a supplied
boundary polygon (boundaries are forbidden regions); otherwise it returns
the weighted lap-time-plus-penalties score. -/
theorem C4_amended :
    (∀ (line : List Point) (td : Option TrackData), line.length < 2 →
      scoreLine line td = 1e9) ∧
    (∀ (line : List Point) (td : Option TrackData), trackSelfIntersects line →
      scoreLine line td = 1e9) ∧
    trackSelfIntersects [⟨0, 0⟩, ⟨10, 10⟩, ⟨10, 0⟩, ⟨0, 10⟩] ∧
    (∀ (line : List Point) (td : Option TrackData),
      (∃ pt ∈ line, ¬ isPointInTrackBounds pt td) → scoreLine line td = 1e9) ∧
    (∀ (line : List Point) (td : Option TrackData), ¬ line.length < 2 →
      ¬ trackSelfIntersects line → (∀ pt ∈ line, isPointInTrackBounds pt td) →
      scoreLine line td = lapTimeCore line + 0.15 * smoothPenalty line
        + 0.001 * devPenalty line td) := by
  refine ⟨?_, ?_, ?_, ?_, ?_⟩
  · intro line td h
    rw [scoreLine, if_pos h]
  · intro line td h
    rw [scoreLine]
    by_cases h2 : line.length < 2
    · rw [if_pos h2]
    · rw [if_neg h2, if_pos h]
  · refine ⟨0, 2, by norm_num, by norm_num, ?_⟩
    have e0 : ([⟨0, 0⟩, ⟨10, 10⟩, ⟨10, 0⟩, ⟨0, 10⟩] : List Point).getD 0 default
        = ⟨0, 0⟩ := rfl
    have e1 : ([⟨0, 0⟩, ⟨10, 10⟩, ⟨10, 0⟩, ⟨0, 10⟩] : List Point).getD 1 default
        = ⟨10, 10⟩ := rfl
    have e2 : ([⟨0, 0⟩, ⟨10, 10⟩, ⟨10, 0⟩, ⟨0, 10⟩] : List Point).getD 2 default
        = ⟨10, 0⟩ := rfl
    have e3 : ([⟨0, 0⟩, ⟨10, 10⟩, ⟨10, 0⟩, ⟨0, 10⟩] : List Point).getD 3 default
        = ⟨0, 10⟩ := rfl
    rw [e0, e1, e2, e3]
    constructor
    · intro hiff
      exact absurd (hiff.1 (by norm_num [ccw])) (by norm_num [ccw])
    · intro hiff
      exact absurd (hiff.2 (by norm_num [ccw])) (by norm_num [ccw])
  · intro line td h
    rw [scoreLine]
    by_cases h2 : line.length < 2
    · rw [if_pos h2]
    · rw [if_neg h2]
      by_cases hsi : trackSelfIntersects line
      · rw [if_pos hsi]
      · rw [if_neg hsi, if_pos h]
  · intro line td h2 hsi hb
    rw [scoreLine, if_neg h2, if_neg hsi, if_neg]
    push_neg
    exact hb

/-- Witness for C4 (amended) on the empty line. -/
theorem C4_witness : scoreLine [] none = 1e9 :=
  C4_amended.1 [] none (by norm_num)

/-- A point at height y = 20 is not inside the 10-by-10 axis-aligned
rectangle: every ray-crossing edge test fails on its y-straddle
condition. -/
theorem pip_rect_miss (pt : Point) (hy : pt.y = 20) :
    ¬ pointInPolygon pt [⟨0, 0⟩, ⟨10, 0⟩, ⟨10, 10⟩, ⟨0, 10⟩] := by
  have hpv : prevVertices [(⟨0, 0⟩ : Point), ⟨10, 0⟩, ⟨10, 10⟩, ⟨0, 10⟩] =
      [⟨0, 10⟩, ⟨0, 0⟩, ⟨10, 0⟩, ⟨10, 10⟩] := by
    simp [prevVertices]
  rw [pointInPolygon, hpv]
  simp only [List.zip_cons_cons, List.zip_nil_right, List.foldl_cons, List.foldl_nil]
  have he : ∀ vi vj : Point, vi.y ≤ 20 → vj.y ≤ 20 → ¬ edgeCond pt vi vj := by
    intro vi vj h1 h2 hc
    exact hc.1 (iff_of_false (by simp [hy]; linarith) (by simp [hy]; linarith))
  have h1 : ¬ edgeCond pt ⟨0, 0⟩ ⟨0, 10⟩ := he _ _ (by norm_num) (by norm_num)
  have h2 : ¬ edgeCond pt ⟨10, 0⟩ ⟨0, 0⟩ := he _ _ (by norm_num) (by norm_num)
  have h3 : ¬ edgeCond pt ⟨10, 10⟩ ⟨10, 0⟩ := he _ _ (by norm_num) (by norm_num)
  have h4 : ¬ edgeCond pt ⟨0, 10⟩ ⟨10, 10⟩ := he _ _ (by norm_num) (by norm_num)
  simp [Xor', h1, h2, h3, h4]

/-- C4 counterexample: a 2-point line lying entirely OUTSIDE the supplied
rectangular boundary polygon is not scored with the invalid sentinel —
the bounds check invalidates points inside a boundary polygon, not
points outside it.  The score is the finite lap time 18/35. -/
theorem C4_counterexample :
    (∀ pt ∈ ([⟨20, 20⟩, ⟨30, 20⟩] : List Point),
      ¬ pointInPolygon pt [⟨0, 0⟩, ⟨10, 0⟩, ⟨10, 10⟩, ⟨0, 10⟩]) ∧
    scoreLine [⟨20, 20⟩, ⟨30, 20⟩]
      (some ⟨some [[⟨0, 0⟩, ⟨10, 0⟩, ⟨10, 10⟩, ⟨0, 10⟩]], none⟩) = 18 / 35 ∧
    (18 / 35 : ℝ) ≠ 1e9 := by
  have hmiss : ∀ pt ∈ ([⟨20, 20⟩, ⟨30, 20⟩] : List Point),
      ¬ pointInPolygon pt [⟨0, 0⟩, ⟨10, 0⟩, ⟨10, 10⟩, ⟨0, 10⟩] := by
    intro pt hpt
    simp only [List.mem_cons, List.not_mem_nil, or_false] at hpt
    rcases hpt with rfl | rfl <;> exact pip_rect_miss _ rfl
  refine ⟨hmiss, ?_, by norm_num⟩
  rw [scoreLine, if_neg (by norm_num),
    if_neg (trackSelfIntersects_short (by norm_num)), if_neg]
  · have hseg : segmentsOf [(⟨20, 20⟩ : Point), ⟨30, 20⟩] =
        [⟨distance ⟨20, 20⟩ ⟨30, 20⟩,
          kart.maxCornerSpeed (radiusOfCurvature ⟨20, 20⟩ ⟨30, 20⟩ ⟨30, 20⟩),
          radiusOfCurvature ⟨20, 20⟩ ⟨30, 20⟩ ⟨30, 20⟩, 0⟩] := rfl
    have hdist : distance (⟨20, 20⟩ : Point) ⟨30, 20⟩ = 10 := by
      rw [distance_of_y_eq ⟨20, 20⟩ ⟨30, 20⟩ (by norm_num)]; norm_num
    have hlap : lapTimeCore [(⟨20, 20⟩ : Point), ⟨30, 20⟩] = 18 / 35 := by
      rw [lapTimeCore, hseg, radiusOfCurvature_self, hdist]
      rw [computeSpeedProfile_single]
      have hassign : assignSpeeds
          [⟨10, kart.maxCornerSpeed none, none, 0⟩] [0] =
          [⟨10, kart.maxCornerSpeed none, none, kart.maxCornerSpeed none⟩] := by
        rw [assignSpeeds]
        simp only [List.zipWith_cons_cons, List.zipWith_nil_right]
        congr 1
        rw [if_neg (by norm_num), if_pos (by norm_num [kart, KartPhysics.maxCornerSpeed])]
      rw [hassign, KartPhysics.estimateLapTime, KartPhysics.estimateLapTime,
        if_pos (by norm_num [kart, KartPhysics.maxCornerSpeed])]
      norm_num [kart, KartPhysics.maxCornerSpeed]
    have hsp : smoothPenalty [(⟨20, 20⟩ : Point), ⟨30, 20⟩] = 0 := rfl
    have hdp : devPenalty [(⟨20, 20⟩ : Point), ⟨30, 20⟩]
        (some ⟨some [[⟨0, 0⟩, ⟨10, 0⟩, ⟨10, 10⟩, ⟨0, 10⟩]], none⟩) = 0 := rfl
    rw [hlap, hsp, hdp]
    norm_num
  · push_neg
    intro pt hpt
    rw [isPointInTrackBounds]
    intro b hb
    simp only [List.mem_cons, List.not_mem_nil, or_false] at hb
    subst hb
    exact hmiss pt hpt

/-- The default kart's corner-speed limit is always positive. -/
theorem kart_maxCornerSpeed_pos (r : Option ℝ) : 0 < kart.maxCornerSpeed r := by
  match r with
  | none => norm_num [KartPhysics.maxCornerSpeed, kart]
  | some x =>
    rw [KartPhysics.maxCornerSpeed]
    by_cases hx : x ≤ 0
    · rw [if_pos hx]; norm_num [kart]
    · rw [if_neg hx]
      refine lt_min (Real.sqrt_pos.2 ?_) (by norm_num [kart])
      have : 0 < x := not_le.1 hx
      rw [kart]
      norm_num
      linarith

/-- The default kart's corner-speed limit never exceeds the cap 70/3.6. -/
theorem kart_maxCornerSpeed_le_cap (r : Option ℝ) :
    kart.maxCornerSpeed r ≤ 70 / 3.6 := by
  match r with
  | none => norm_num [KartPhysics.maxCornerSpeed, kart]
  | some x =>
    rw [KartPhysics.maxCornerSpeed]
    by_cases hx : x ≤ 0
    · rw [if_pos hx]; norm_num [kart]
    · rw [if_neg hx]
      exact le_trans (min_le_right _ _) (by norm_num [kart])

/-- Every segment built from a line has nonnegative length and a positive
grip speed limit bounded by the cap. -/
theorem segmentsOf_facts : ∀ (line : List Point), ∀ s ∈ segmentsOf line,
    0 ≤ s.length ∧ 0 < s.maxSpeed ∧ s.maxSpeed ≤ 70 / 3.6
  | p1 :: p2 :: p3 :: rest, s, hs => by
    rw [segmentsOf] at hs
    rcases List.mem_cons.1 hs with rfl | hs'
    · exact ⟨distance_nonneg _ _, kart_maxCornerSpeed_pos _, kart_maxCornerSpeed_le_cap _⟩
    · exact segmentsOf_facts (p2 :: p3 :: rest) s hs'
  | [p1, p2], s, hs => by
    rw [segmentsOf] at hs
    rcases List.mem_cons.1 hs with rfl | hs'
    · exact ⟨distance_nonneg _ _, kart_maxCornerSpeed_pos _, kart_maxCornerSpeed_le_cap _⟩
    · simp at hs'
  | [], s, hs => by simp [segmentsOf] at hs
  | [p], s, hs => by simp [segmentsOf] at hs

/-- Every profile entry over segments with cap-bounded nonneg grip limits
lies in [0, cap]. -/
theorem computeSpeedProfile_mem_bounds (segs : List Segment)
    (hf : ∀ s ∈ segs, 0 ≤ s.length ∧ 0 < s.maxSpeed ∧ s.maxSpeed ≤ 70 / 3.6) :
    ∀ v ∈ kart.computeSpeedProfile segs, 0 ≤ v ∧ v ≤ 70 / 3.6 := by
  intro v hv
  refine ⟨computeSpeedProfile_nonneg kart segs
    (fun s hs => le_of_lt (hf s hs).2.1) v hv, ?_⟩
  rcases List.mem_iff_getElem.1 hv with ⟨i, hi, rfl⟩
  have hi' : i < segs.length := by
    rw [computeSpeedProfile_length] at hi; exact hi
  have h1 := computeSpeedProfile_getD_le kart segs
    (fun s hs => le_of_lt (hf s hs).2.1) i hi'
  rw [List.getD_eq_getElem _ _ hi] at h1
  refine le_trans h1 ?_
  have : segs.getD i default ∈ segs := by
    rw [List.getD_eq_getElem _ _ hi']
    exact List.getElem_mem hi'
  exact (hf _ this).2.2

/-- After `||`-assignment the per-segment speeds are positive, at most the
cap, and the lengths keep their nonnegativity. -/
theorem assignSpeeds_facts : ∀ (segs : List Segment) (speeds : List ℝ),
    (∀ s ∈ segs, 0 ≤ s.length ∧ 0 < s.maxSpeed ∧ s.maxSpeed ≤ 70 / 3.6) →
    (∀ v ∈ speeds, 0 ≤ v ∧ v ≤ 70 / 3.6) →
    ∀ s ∈ assignSpeeds segs speeds,
      0 ≤ s.length ∧ 0 < s.speed ∧ s.speed ≤ 70 / 3.6
  | [], _, _, _, s, hs => by simp [assignSpeeds] at hs
  | _ :: _, [], _, _, s, hs => by simp [assignSpeeds] at hs
  | sg :: segs, v :: speeds, hsegs, hsp, s, hs => by
    rw [assignSpeeds, List.zipWith_cons_cons] at hs
    rcases List.mem_cons.1 hs with rfl | hs'
    · refine ⟨(hsegs sg (List.mem_cons_self _ _)).1, ?_⟩
      simp only
      by_cases hv : v ≠ 0
      · rw [if_pos hv]
        have := hsp v (List.mem_cons_self _ _)
        exact ⟨lt_of_le_of_ne this.1 (Ne.symm hv), this.2⟩
      · rw [if_neg hv]
        by_cases hm : sg.maxSpeed ≠ 0
        · rw [if_pos hm]
          exact ⟨(hsegs sg (List.mem_cons_self _ _)).2.1,
            (hsegs sg (List.mem_cons_self _ _)).2.2⟩
        · rw [if_neg hm]
          norm_num
    · exact assignSpeeds_facts segs speeds
        (fun u hu => hsegs u (List.mem_cons_of_mem _ hu))
        (fun u hu => hsp u (List.mem_cons_of_mem _ hu)) s hs'

/-- The estimated lap time over nonnegative-length segments is
nonnegative. -/
theorem estimateLapTime_nonneg : ∀ l : List Segment,
    (∀ s ∈ l, 0 ≤ s.length) → 0 ≤ kart.estimateLapTime l
  | [], _ => le_refl 0
  | s :: rest, h => by
    rw [KartPhysics.estimateLapTime]
    have h1 : 0 ≤ kart.estimateLapTime rest :=
      estimateLapTime_nonneg rest (fun u hu => h u (List.mem_cons_of_mem _ hu))
    have h2 : (0 : ℝ) ≤ if s.speed > 0 then s.length / s.speed else 0 := by
      by_cases hv : s.speed > 0
      · rw [if_pos hv]
        exact div_nonneg (h s (List.mem_cons_self _ _)) (le_of_lt hv)
      · rw [if_neg hv]
    linarith

/-- Lower bound on the estimated lap time: with every assigned speed in
(0, cap], each segment takes at least length/cap. -/
theorem estimateLapTime_ge : ∀ l : List Segment,
    (∀ s ∈ l, 0 ≤ s.length ∧ 0 < s.speed ∧ s.speed ≤ 70 / 3.6) →
    ((l.map (·.length)).sum) / (70 / 3.6) ≤ kart.estimateLapTime l
  | [], _ => by norm_num [KartPhysics.estimateLapTime]
  | s :: rest, h => by
    rw [KartPhysics.estimateLapTime, List.map_cons, List.sum_cons, add_div]
    have hrec := estimateLapTime_ge rest (fun u hu => h u (List.mem_cons_of_mem _ hu))
    have hs := h s (List.mem_cons_self _ _)
    rw [if_pos hs.2.1]
    have hterm : s.length / (70 / 3.6) ≤ s.length / s.speed :=
      div_le_div_of_nonneg_left hs.1 hs.2.1 hs.2.2
    linarith

/-- The segment lengths of `segmentsOf` sum to the track length. -/
theorem segmentsOf_map_length_sum : ∀ line : List Point,
    ((segmentsOf line).map (·.length)).sum = trackLength line
  | p1 :: p2 :: p3 :: rest => by
    rw [segmentsOf, trackLength, List.map_cons, List.sum_cons,
      segmentsOf_map_length_sum (p2 :: p3 :: rest)]
  | [p1, p2] => by simp [segmentsOf, trackLength]
  | [] => rfl
  | [p] => rfl

/-- The profile of a nonempty segment list starts with the standing-start
zero. -/
theorem computeSpeedProfile_exists_cons (K : KartPhysics) (s₀ : Segment)
    (rest : List Segment) :
    ∃ tl, K.computeSpeedProfile (s₀ :: rest) = 0 :: tl := by
  cases rest with
  | nil => exact ⟨[], computeSpeedProfile_single K s₀⟩
  | cons s₁ tl => exact ⟨_, computeSpeedProfile_cons_cons K s₀ s₁ tl⟩

/-- C8: for a line with at least 2 points, `calculateLapTime` replaces
zero profile entries (the standing start in particular) by the segment's
grip-limit speed (falling back to 0.1), so every assigned speed is
positive, the first segment is timed at its grip limit, and the result is
a finite nonnegative time, not the infinite sentinel. -/
theorem C8_zero_speed_replacement (line : List Point) (td : Option TrackData)
    (h2 : 2 ≤ line.length) :
    (∃ tm, calculateLapTime line td = some tm ∧ 0 ≤ tm) ∧
    (kart.computeSpeedProfile (segmentsOf line)).headD 0 = 0 ∧
    (∀ s ∈ assignSpeeds (segmentsOf line)
        (kart.computeSpeedProfile (segmentsOf line)), 0 < s.speed) ∧
    ((assignSpeeds (segmentsOf line)
        (kart.computeSpeedProfile (segmentsOf line))).headD default).speed =
      ((segmentsOf line).headD default).maxSpeed := by
  obtain ⟨a, b, rest, rfl⟩ : ∃ a b rest, line = a :: b :: rest := by
    match line, h2 with
    | a :: b :: rest, _ => exact ⟨a, b, rest, rfl⟩
  have hsegshape : ∃ s₀ tail, segmentsOf (a :: b :: rest) = s₀ :: tail := by
    cases rest with
    | nil => exact ⟨_, _, rfl⟩
    | cons c rs => exact ⟨_, _, rfl⟩
  obtain ⟨s₀, tail, hseg⟩ := hsegshape
  obtain ⟨ptl, hprof⟩ := computeSpeedProfile_exists_cons kart s₀ tail
  have hfacts := segmentsOf_facts (a :: b :: rest)
  have hprofb := computeSpeedProfile_mem_bounds (segmentsOf (a :: b :: rest)) hfacts
  have hafacts := assignSpeeds_facts (segmentsOf (a :: b :: rest))
    (kart.computeSpeedProfile (segmentsOf (a :: b :: rest))) hfacts hprofb
  refine ⟨⟨lapTimeCore (a :: b :: rest), ?_, ?_⟩, ?_, ?_, ?_⟩
  · rw [calculateLapTime, if_neg (by simp)]
  · exact estimateLapTime_nonneg _ (fun s hs => (hafacts s hs).1)
  · rw [hseg, hprof]
    rfl
  · exact fun s hs => (hafacts s hs).2.1
  · rw [hseg, hprof, assignSpeeds, List.zipWith_cons_cons]
    have hms : s₀.maxSpeed ≠ 0 := by
      have := (hfacts s₀ (by rw [hseg]; exact List.mem_cons_self _ _)).2.1
      linarith
    simp only [List.headD_cons]
    rw [if_neg (by norm_num), if_pos hms]

/-- Witness for C8 on a concrete 2-point line. -/
theorem C8_witness :
    ∃ tm, calculateLapTime [⟨0, 0⟩, ⟨3, 4⟩] none = some tm ∧ 0 ≤ tm :=
  (C8_zero_speed_replacement [⟨0, 0⟩, ⟨3, 4⟩] none (by norm_num)).1

/-- Setting a non-head index leaves the head unchanged. -/
theorem head?_set_ne (l : List Point) (i : ℕ) (v : Point) (h : i ≠ 0) :
    (l.set i v).head? = l.head? := by
  rw [List.head?_eq_getElem?, List.head?_eq_getElem?, List.getElem?_set_ne h]

/-- Setting a non-last index leaves the last element unchanged. -/
theorem getLast?_set_ne (l : List Point) (i : ℕ) (v : Point) (h : i + 1 ≠ l.length) :
    (l.set i v).getLast? = l.getLast? := by
  cases l with
  | nil => rfl
  | cons a tl =>
    rw [List.getLast?_eq_getElem?, List.getLast?_eq_getElem?, List.length_set]
    exact List.getElem?_set_ne (by simp at h ⊢; omega)

/-- Two equal-length lists with equal last elements keep that equality
after consing the same head. -/
theorem getLast?_cons_congr {a : Point} {X Y : List Point}
    (hlen : X.length = Y.length) (h : X.getLast? = Y.getLast?) :
    (a :: X).getLast? = (a :: Y).getLast? := by
  cases X with
  | nil =>
    cases Y with
    | nil => rfl
    | cons y ys => simp at hlen
  | cons x xs =>
    cases Y with
    | nil => simp at hlen
    | cons y ys => rw [List.getLast?_cons_cons, List.getLast?_cons_cons]; exact h

theorem smoothOnce_length : ∀ (prev : Point) (l : List Point),
    (smoothOnce prev l).length = l.length
  | _, [] => rfl
  | _, [_] => rfl
  | prev, cur :: next :: rest => by
    simp only [smoothOnce, List.length_cons]
    rw [smoothOnce_length _ (next :: rest)]
    simp

theorem smoothOnce_getLast? : ∀ (prev : Point) (l : List Point),
    (smoothOnce prev l).getLast? = l.getLast?
  | _, [] => rfl
  | _, [_] => rfl
  | prev, cur :: next :: rest => by
    simp only [smoothOnce]
    rw [List.getLast?_cons_cons]
    calc ((⟨(prev.x + cur.x * 2 + next.x) / 4, (prev.y + cur.y * 2 + next.y) / 4⟩ : Point)
          :: smoothOnce ⟨(prev.x + cur.x * 2 + next.x) / 4,
              (prev.y + cur.y * 2 + next.y) / 4⟩ (next :: rest)).getLast?
        = (⟨(prev.x + cur.x * 2 + next.x) / 4, (prev.y + cur.y * 2 + next.y) / 4⟩
            :: next :: rest).getLast? :=
          getLast?_cons_congr (smoothOnce_length _ _) (smoothOnce_getLast? _ _)
      _ = (next :: rest).getLast? := List.getLast?_cons_cons

theorem smoothLocalPass_length (l : List Point) :
    (smoothLocalPass l).length = l.length := by
  cases l with
  | nil => rfl
  | cons a rest => simp only [smoothLocalPass, List.length_cons, smoothOnce_length]

theorem smoothLocalPass_head? (l : List Point) :
    (smoothLocalPass l).head? = l.head? := by
  cases l with
  | nil => rfl
  | cons a rest => rfl

theorem smoothLocalPass_getLast? (l : List Point) :
    (smoothLocalPass l).getLast? = l.getLast? := by
  cases l with
  | nil => rfl
  | cons a rest =>
    simp only [smoothLocalPass]
    exact getLast?_cons_congr (smoothOnce_length _ _) (smoothOnce_getLast? _ _)

theorem smoothLocal_length (l : List Point) (it : ℕ) :
    (smoothLocal l it).length = l.length := by
  induction it generalizing l with
  | zero => rfl
  | succ n ih =>
    simp only [smoothLocal, Function.iterate_succ_apply] at ih ⊢
    rw [ih, smoothLocalPass_length]

theorem smoothLocal_head? (l : List Point) (it : ℕ) :
    (smoothLocal l it).head? = l.head? := by
  induction it generalizing l with
  | zero => rfl
  | succ n ih =>
    simp only [smoothLocal, Function.iterate_succ_apply] at ih ⊢
    rw [ih, smoothLocalPass_head?]

theorem smoothLocal_getLast? (l : List Point) (it : ℕ) :
    (smoothLocal l it).getLast? = l.getLast? := by
  induction it generalizing l with
  | zero => rfl
  | succ n ih =>
    simp only [smoothLocal, Function.iterate_succ_apply] at ih ⊢
    rw [ih, smoothLocalPass_getLast?]

theorem dedupPush_of_getLast?_none {out : List Point} {pt : Point}
    (h : out.getLast? = none) : dedupPush out pt = [pt] := by
  rw [dedupPush, h]

theorem dedupPush_of_getLast?_some {out : List Point} {pt q : Point}
    (h : out.getLast? = some q) :
    dedupPush out pt =
      if hypot (q.x - pt.x) (q.y - pt.y) > 0.1 then out ++ [pt] else out := by
  rw [dedupPush, h]

/-- The dedup fold only ever appends: the accumulator is a prefix of the
result. -/
theorem foldl_dedupPush_append : ∀ (l : List Point) (acc : List Point),
    acc ≠ [] → ∃ t, l.foldl dedupPush acc = acc ++ t
  | [], acc, _ => ⟨[], by simp⟩
  | x :: xs, acc, hne => by
    rw [List.foldl_cons]
    have hstep : ∃ s, dedupPush acc x = acc ++ s := by
      rcases hq : acc.getLast? with - | q
      · exact absurd (List.getLast?_eq_none_iff.1 hq) hne
      · rw [dedupPush_of_getLast?_some hq]
        by_cases hd : hypot (q.x - x.x) (q.y - x.y) > 0.1
        · exact ⟨[x], by rw [if_pos hd]⟩
        · exact ⟨[], by rw [if_neg hd]; simp⟩
    obtain ⟨s, hs⟩ := hstep
    have hne' : acc ++ s ≠ [] := fun hc => hne (List.append_eq_nil.1 hc).1
    obtain ⟨t, ht⟩ := foldl_dedupPush_append xs (acc ++ s) hne'
    exact ⟨s ++ t, by rw [hs, ht, List.append_assoc]⟩

/-- The head of the dedup fold started on a nonempty accumulator is the
accumulator's head. -/
theorem head?_foldl_dedupPush_cons (x : Point) (xs : List Point) (z : List Point) :
    ((xs.foldl dedupPush [x]) ++ z).head? = some x := by
  obtain ⟨t, ht⟩ := foldl_dedupPush_append xs [x] (by simp)
  rw [ht]
  rfl

/-- Catmull-Rom interpolation at t = 0 returns the second control point
exactly. -/
theorem catmullRom_zero (p0 p1 p2 p3 : Point) : catmullRom p0 p1 p2 p3 0 = p1 := by
  apply Point.ext_xy <;> simp [catmullRom] <;> ring

/-- `smoothLine` keeps the exact last input point (it is pushed
unconditionally after resampling). -/
theorem smoothLine_getLast? (l : List Point) (it : ℕ) (h3 : 3 ≤ l.length) :
    (smoothLine l it).getLast? = l.getLast? := by
  simp only [smoothLine]
  rw [if_neg (by omega), List.getLast?_concat, List.getD_eq_getElem _ _ (by omega),
    List.getLast?_eq_getElem?, List.getElem?_eq_getElem (by omega)]

/-- `smoothLine` keeps the exact first input point (the first sample is
the Catmull-Rom value at t = 0 of the first segment). -/
theorem smoothLine_head? (l : List Point) (it : ℕ) (h3 : 3 ≤ l.length) :
    (smoothLine l it).head? = l.head? := by
  simp only [smoothLine]
  rw [if_neg (by omega)]
  obtain ⟨m, hm⟩ : ∃ m, l.length - 1 = m + 1 := ⟨l.length - 2, by omega⟩
  obtain ⟨k, hk⟩ : ∃ k, 6 * max 1 it = k + 1 := by
    have : 1 ≤ max 1 it := le_max_left _ _
    exact ⟨6 * max 1 it - 1, by omega⟩
  rw [hm, hk, List.range_succ_eq_map, List.flatMap_cons, List.range_succ_eq_map,
    List.map_cons, List.cons_append, List.foldl_cons]
  have hd0 : dedupPush [] (smoothSample l (k + 1) 0 0)
      = [smoothSample l (k + 1) 0 0] := rfl
  rw [hd0, head?_foldl_dedupPush_cons]
  have hsample : smoothSample l (k + 1) 0 0 = l.getD 0 default := by
    rw [smoothSample]
    simp only [Nat.cast_zero, zero_div]
    exact catmullRom_zero _ _ _ _
  rw [hsample]
  cases l with
  | nil => simp at h3
  | cons a rest => rfl

/-- Invariant preservation through a left fold. -/
theorem foldl_inv {α β : Type} (P : α → Prop) (f : α → β → α) :
    ∀ (l : List β) (init : α), P init → (∀ a b, P a → P (f a b)) → P (l.foldl f init)
  | [], _, h, _ => h
  | b :: bs, init, h, hstep => foldl_inv P f bs (f init b) (hstep _ _ h) hstep

/-- A perturbation step never changes the candidate's length, head, or
last point: an index accepted by the guard is strictly interior. -/
theorem perturbStep_facts (td : Option TrackData) (rand : ℕ → ℝ) (t : ℝ)
    (fe : ℤ) (cand : List Point) (n p : ℕ)
    (hfe : fe ≤ (cand.length : ℤ) - 1) :
    (perturbStep td rand fe t (cand, n) p).1.length = cand.length ∧
    (perturbStep td rand fe t (cand, n) p).1.head? = cand.head? ∧
    (perturbStep td rand fe t (cand, n) p).1.getLast? = cand.getLast? := by
  simp only [perturbStep]
  by_cases hg : (1 + ⌊rand n * ((cand.length : ℝ) - 2)⌋ ≤ 0 ∨
      fe ≤ 1 + ⌊rand n * ((cand.length : ℝ) - 2)⌋)
  · rw [if_pos hg]
    exact ⟨rfl, rfl, rfl⟩
  · rw [if_neg hg]
    push_neg at hg
    obtain ⟨hi0, hife⟩ := hg
    split_ifs <;> try exact ⟨rfl, rfl, rfl⟩
    all_goals
      refine ⟨List.length_set _ _ _, head?_set_ne _ _ _ ?_, getLast?_set_ne _ _ _ ?_⟩
    any_goals rw [Ne, Int.toNat_eq_zero]; omega
    all_goals
      have hnn : (0 : ℤ) ≤ 1 + ⌊rand n * ((cand.length : ℝ) - 2)⌋ := by omega
    all_goals
      have := Int.toNat_of_nonneg hnn
    all_goals omega

/-- The accepted candidate of an annealing step is either the previous one
or the local smoothing of some perturbation fold from it. -/
theorem annealStep_best_cases (td : Option TrackData) (rand : ℕ → ℝ)
    (iters : ℕ) (fe : ℤ) (st : AnnealState) (k : ℕ) :
    (annealStep td rand iters fe st k).best = st.best ∨
    ∃ (t : ℝ) (m : ℕ),
      (annealStep td rand iters fe st k).best =
        smoothLocal ((List.range m).foldl (perturbStep td rand fe t)
          (st.best, st.ctr + 1)).1 1 := by
  simp only [annealStep]
  split_ifs with h1 h2
  · exact Or.inr ⟨_, _, rfl⟩
  · exact Or.inr ⟨_, _, rfl⟩
  · exact Or.inl rfl

/-- The annealing loop preserves the length, head, and last point of the
input line. -/
theorem annealLoop_facts (line : List Point) (td : Option TrackData)
    (iters : ℕ) (rand : ℕ → ℝ) :
    (annealLoop line td iters rand).best.length = line.length ∧
    (annealLoop line td iters rand).best.head? = line.head? ∧
    (annealLoop line td iters rand).best.getLast? = line.getLast? := by
  rw [annealLoop]
  refine foldl_inv
    (fun st : AnnealState => st.best.length = line.length ∧
      st.best.head? = line.head? ∧ st.best.getLast? = line.getLast?)
    _ _ _ ⟨rfl, rfl, rfl⟩ ?_
  intro st k hst
  rcases annealStep_best_cases td rand (max 40 iters) ((line.length : ℤ) - 1) st k
    with hb | ⟨t, m, hb⟩
  · rw [hb]; exact hst
  · rw [hb]
    have hinner := foldl_inv
      (fun s : List Point × ℕ => s.1.length = line.length ∧
        s.1.head? = line.head? ∧ s.1.getLast? = line.getLast?)
      (perturbStep td rand ((line.length : ℤ) - 1) t) (List.range m)
      (st.best, st.ctr + 1) ⟨hst.1, hst.2.1, hst.2.2⟩ ?_
    · exact ⟨by rw [smoothLocal_length]; exact hinner.1,
        by rw [smoothLocal_head?]; exact hinner.2.1,
        by rw [smoothLocal_getLast?]; exact hinner.2.2⟩
    · intro a b ha
      have hfe : ((line.length : ℤ) - 1) ≤ (a.1.length : ℤ) - 1 := by
        rw [ha.1]
      have hp := perturbStep_facts td rand t ((line.length : ℤ) - 1) a.1 a.2 b hfe
      rw [show (a.1, a.2) = a from rfl] at hp
      exact ⟨hp.1.trans ha.1, hp.2.1.trans ha.2.1, hp.2.2.trans ha.2.2⟩

/-- C6: the optimizer never moves the endpoints — the returned line has
exactly the input's first and last points; neither the per-iteration
local smoothing nor the final spline resampling moves an endpoint. -/
theorem C6_endpoints_fixed (line : List Point) (td : Option TrackData)
    (iters : ℕ) (rand : ℕ → ℝ) (h3 : 3 ≤ line.length) :
    (optimizeLine line td iters rand).head? = line.head? ∧
    (optimizeLine line td iters rand).getLast? = line.getLast? ∧
    (∀ l : List Point, (smoothLocal l 1).head? = l.head? ∧
      (smoothLocal l 1).getLast? = l.getLast?) ∧
    (∀ (l : List Point) (it : ℕ), 3 ≤ l.length →
      (smoothLine l it).head? = l.head? ∧ (smoothLine l it).getLast? = l.getLast?) := by
  have hlf := annealLoop_facts line td iters rand
  refine ⟨?_, ?_, fun l => ⟨smoothLocal_head? l 1, smoothLocal_getLast? l 1⟩,
    fun l it h => ⟨smoothLine_head? l it h, smoothLine_getLast? l it h⟩⟩
  · rw [optimizeLine, if_neg (by omega)]
    rw [smoothLine_head? _ _ (by rw [hlf.1]; omega), hlf.2.1]
  · rw [optimizeLine, if_neg (by omega)]
    rw [smoothLine_getLast? _ _ (by rw [hlf.1]; omega), hlf.2.2]

/-- Witness for C6 on a concrete 3-point line. -/
theorem C6_witness :
    (optimizeLine [⟨0, 0⟩, ⟨1, 1⟩, ⟨2, 0⟩] none 0 (fun _ => 0)).head? =
      some ⟨0, 0⟩ ∧
    (optimizeLine [⟨0, 0⟩, ⟨1, 1⟩, ⟨2, 0⟩] none 0 (fun _ => 0)).getLast? =
      some ⟨2, 0⟩ := by
  have h := C6_endpoints_fixed [⟨0, 0⟩, ⟨1, 1⟩, ⟨2, 0⟩] none 0 (fun _ => 0)
    (by norm_num)
  exact ⟨h.1, by rw [h.2.1]; rfl⟩

/-- The straight, evenly spaced 3-point line used to exercise the
optimizer: an arithmetic progression on the x-axis, which the local
smoothing pass leaves exactly in place. -/
def lineCx : List Point := [⟨0, 0⟩, ⟨25, 0⟩, ⟨50, 0⟩]

/-- Writing back the element already at an index leaves a list
unchanged. -/
theorem set_getD_self : ∀ (l : List Point) (i : ℕ),
    l.set i (l.getD i default) = l
  | [], _ => rfl
  | a :: tl, 0 => rfl
  | a :: tl, i + 1 => by
    simp only [List.set_cons_succ, List.getD_cons_succ]
    rw [set_getD_self tl i]

/-- With both displacement draws equal to 0.5 the proposed point is the
current point itself, so a perturbation step never changes the candidate
(whether the guard skips or the unchanged point is written back). -/
theorem perturbStep_keeps (t : ℝ) (fe : ℤ) (cand : List Point) (n p : ℕ) :
    (perturbStep none (fun _ => (1 / 2 : ℝ)) fe t (cand, n) p).1 = cand := by
  simp only [perturbStep]
  by_cases hg : (1 + ⌊(1 / 2 : ℝ) * ((cand.length : ℝ) - 2)⌋ ≤ 0 ∨
      fe ≤ 1 + ⌊(1 / 2 : ℝ) * ((cand.length : ℝ) - 2)⌋)
  · rw [if_pos hg]
  · rw [if_neg hg]
    simp only [show (1 / 2 : ℝ) - 0.5 = 0 by norm_num, zero_mul, mul_zero, add_zero]
    rw [if_neg (by simp [isPointInTrackBounds])]
    rw [if_neg ?step]
    case step =>
      rw [sub_self, sub_self, hypot]
      have h0 : Real.sqrt ((0 : ℝ) ^ 2 + 0 ^ 2) = 0 := by norm_num
      rw [h0]
      exact not_lt.2 (mul_nonneg
        (le_trans (by norm_num) (le_max_left _ _)) (by norm_num))
    exact set_getD_self cand _

/-- The local smoothing pass fixes the evenly spaced straight line. -/
theorem smoothLocal_lineCx : smoothLocal lineCx 1 = lineCx := by
  show smoothLocalPass (smoothLocalPass^[0] lineCx) = lineCx
  simp only [Function.iterate_zero, id]
  simp only [smoothLocalPass, lineCx, smoothOnce]
  norm_num

/-- With the constant 1/2 random stream, every annealing step leaves the
tracked candidate and score at the straight line and its score: the
perturbations are no-ops, the smoothing fixes the line, and the zero
score delta is accepted since exp 0 = 1 > 1/2. -/
theorem annealStep_lineCx (iters : ℕ) (fe : ℤ) (st : AnnealState) (k : ℕ)
    (hb : st.best = lineCx) (hs : st.bestScore = scoreLine lineCx none) :
    (annealStep none (fun _ => (1 / 2 : ℝ)) iters fe st k).best = lineCx ∧
    (annealStep none (fun _ => (1 / 2 : ℝ)) iters fe st k).bestScore =
      scoreLine lineCx none := by
  simp only [annealStep]
  have hfold : ∀ (m : ℕ) (T : ℝ) (c : ℕ),
      ((List.range m).foldl (perturbStep none (fun _ => (1 / 2 : ℝ)) fe T)
        (st.best, c)).1 = lineCx := by
    intro m T c
    refine foldl_inv (fun s : List Point × ℕ => s.1 = lineCx) _ _ _ hb ?_
    intro a b ha
    have := perturbStep_keeps T fe a.1 a.2 b
    rw [show (a.1, a.2) = a from rfl] at this
    rw [this, ha]
  rw [hfold, smoothLocal_lineCx, hs, sub_self]
  rw [if_neg (lt_irrefl 0)]
  rw [if_pos]
  · exact ⟨rfl, rfl⟩
  · rw [neg_zero, zero_div, Real.exp_zero]
    norm_num

/-- With the constant 1/2 stream, the whole annealing loop is stationary
at the straight line. -/
theorem annealLoop_lineCx :
    (annealLoop lineCx none 40 (fun _ => (1 / 2 : ℝ))).best = lineCx := by
  rw [annealLoop]
  refine (foldl_inv (fun st : AnnealState => st.best = lineCx ∧
    st.bestScore = scoreLine lineCx none) _ _ _ ⟨rfl, rfl⟩ ?_).1
  intro st k hst
  exact annealStep_lineCx _ _ st k hst.1 hst.2

/-- On the straight line the optimizer reduces to the final spline
resampling pass. -/
theorem optimizeLine_lineCx :
    optimizeLine lineCx none 40 (fun _ => (1 / 2 : ℝ)) = smoothLine lineCx 3 := by
  rw [optimizeLine, if_neg (by norm_num [lineCx]), annealLoop_lineCx]

/-- The smoothness penalty is a sum of squares, hence nonnegative. -/
theorem smoothPenalty_nonneg : ∀ l : List Point, 0 ≤ smoothPenalty l
  | p1 :: p2 :: p3 :: rest => by
    rw [smoothPenalty]
    have h1 := smoothPenalty_nonneg (p2 :: p3 :: rest)
    positivity
  | [] => le_refl 0
  | [_] => le_refl 0
  | [_, _] => le_refl 0

/-- The score of the straight 3-point test line: two 25 m straights at
the 70/3.6 m/s cap, no penalties. -/
theorem scoreLine_lineCx : scoreLine lineCx none = 18 / 7 := by
  have hy : ∀ p ∈ lineCx, p.y = 0 := by
    intro p hp
    simp only [lineCx, List.mem_cons, List.not_mem_nil, or_false] at hp
    rcases hp with rfl | rfl | rfl <;> rfl
  rw [scoreLine, if_neg (by norm_num [lineCx]),
    if_neg (trackSelfIntersects_yzero hy),
    if_neg (by push_neg; intro pt _; trivial)]
  have hroc1 : radiusOfCurvature ⟨0, 0⟩ ⟨25, 0⟩ ⟨50, 0⟩ = none :=
    radiusOfCurvature_of_y_eq _ _ _ rfl rfl
  have hroc2 : radiusOfCurvature ⟨25, 0⟩ ⟨50, 0⟩ ⟨50, 0⟩ = none :=
    radiusOfCurvature_self _ _
  have hd1 : distance (⟨0, 0⟩ : Point) ⟨25, 0⟩ = 25 := by
    rw [distance_on_axis ⟨0, 0⟩ ⟨25, 0⟩ rfl rfl]; norm_num
  have hd2 : distance (⟨25, 0⟩ : Point) ⟨50, 0⟩ = 25 := by
    rw [distance_on_axis ⟨25, 0⟩ ⟨50, 0⟩ rfl rfl]; norm_num
  have hseg : segmentsOf lineCx =
      [⟨distance ⟨0, 0⟩ ⟨25, 0⟩,
          kart.maxCornerSpeed (radiusOfCurvature ⟨0, 0⟩ ⟨25, 0⟩ ⟨50, 0⟩),
          radiusOfCurvature ⟨0, 0⟩ ⟨25, 0⟩ ⟨50, 0⟩, 0⟩,
        ⟨distance ⟨25, 0⟩ ⟨50, 0⟩,
          kart.maxCornerSpeed (radiusOfCurvature ⟨25, 0⟩ ⟨50, 0⟩ ⟨50, 0⟩),
          radiusOfCurvature ⟨25, 0⟩ ⟨50, 0⟩ ⟨50, 0⟩, 0⟩] := rfl
  have hmcs : kart.maxCornerSpeed none = 70 / 3.6 := by
    norm_num [KartPhysics.maxCornerSpeed, kart]
  have hlap : lapTimeCore lineCx = 18 / 7 := by
    rw [lapTimeCore, hseg, hroc1, hroc2, hmcs, hd1, hd2,
      computeSpeedProfile_cons_cons]
    dsimp only
    have hsqrt : Real.sqrt ((0 : ℝ) ^ 2 + 2 * kart.maxAcceleration * 25) = 20 := by
      rw [show ((0 : ℝ) ^ 2 + 2 * kart.maxAcceleration * 25) = 20 ^ 2 by
        norm_num [kart]]
      exact Real.sqrt_sq (by norm_num)
    rw [hsqrt, min_eq_left (by norm_num), forwardFrom]
    simp only [List.map_nil, List.zip_nil_right, backwardPass]
    rw [assignSpeeds]
    simp only [List.zipWith_cons_cons, List.zipWith_nil_right]
    rw [if_neg (by norm_num), if_pos (by norm_num : (70 : ℝ) / 3.6 ≠ 0),
      if_pos (by norm_num : (70 : ℝ) / 3.6 ≠ 0)]
    rw [KartPhysics.estimateLapTime, KartPhysics.estimateLapTime,
      KartPhysics.estimateLapTime]
    dsimp only
    norm_num
  have hsp : smoothPenalty lineCx = 0 := by
    show (match radiusOfCurvature ⟨0, 0⟩ ⟨25, 0⟩ ⟨50, 0⟩ with
      | none => (0 : ℝ)
      | some r => if r = 0 then 0 else 1 / max 1e-3 |r|) ^ 2
        + smoothPenalty [⟨25, 0⟩, ⟨50, 0⟩] = 0
    rw [hroc1]
    norm_num [smoothPenalty]
  have hdp : devPenalty lineCx none = 0 := rfl
  rw [hlap, hsp, hdp]
  norm_num

/-- Assigning speeds leaves the per-segment lengths unchanged. -/
theorem assignSpeeds_map_length : ∀ (segs : List Segment) (speeds : List ℝ),
    segs.length = speeds.length →
    (assignSpeeds segs speeds).map (·.length) = segs.map (·.length)
  | [], [], _ => rfl
  | [], _ :: _, h => by simp at h
  | _ :: _, [], h => by simp at h
  | sg :: segs, v :: speeds, h => by
    rw [assignSpeeds, List.zipWith_cons_cons, List.map_cons, List.map_cons]
    congr 1
    exact assignSpeeds_map_length segs speeds (by simpa using h)

/-- Strict lap-time lower bound: the second segment of a line starts from
the standing-start profile, so with a short (≤ 1) positive second segment
the lap time strictly exceeds the full-cap time by at least
length * (1/4 - 3.6/70). -/
theorem lapTimeCore_cons3_ge (a b c : Point) (rest : List Point)
    (hm0 : 0 < distance b c) (hm1 : distance b c ≤ 1) :
    trackLength (a :: b :: c :: rest) / (70 / 3.6)
      + distance b c * (1 / 4 - 3.6 / 70) ≤ lapTimeCore (a :: b :: c :: rest) := by
  obtain ⟨s₁, t₂, hseg2, hlen1⟩ :
      ∃ s₁ t₂, segmentsOf (b :: c :: rest) = s₁ :: t₂ ∧ s₁.length = distance b c := by
    cases rest with
    | nil => exact ⟨_, _, rfl, rfl⟩
    | cons d rs => exact ⟨_, _, rfl, rfl⟩
  have hseg : segmentsOf (a :: b :: c :: rest) =
      (⟨distance a b, kart.maxCornerSpeed (radiusOfCurvature a b c),
        radiusOfCurvature a b c, 0⟩ : Segment) :: s₁ :: t₂ := by
    rw [segmentsOf, hseg2]
  set s₀ : Segment := ⟨distance a b, kart.maxCornerSpeed (radiusOfCurvature a b c),
    radiusOfCurvature a b c, 0⟩ with hs₀
  have hfacts := segmentsOf_facts (a :: b :: c :: rest)
  have hs₀mem : s₀ ∈ segmentsOf (a :: b :: c :: rest) := by
    rw [hseg]; exact List.mem_cons_self _ _
  have hs₁mem : s₁ ∈ segmentsOf (a :: b :: c :: rest) := by
    rw [hseg]; exact List.mem_cons_of_mem _ (List.mem_cons_self _ _)
  have hs₀f := hfacts s₀ hs₀mem
  have hs₁f := hfacts s₁ hs₁mem
  have hprofb := computeSpeedProfile_mem_bounds (segmentsOf (a :: b :: c :: rest)) hfacts
  rw [lapTimeCore, hseg, computeSpeedProfile_cons_cons]
  set v₁f : ℝ := min s₁.maxSpeed
    (Real.sqrt (0 ^ 2 + 2 * kart.maxAcceleration * s₁.length)) with hv₁f
  set bp : List ℝ := backwardPass kart ((v₁f, s₁.length) ::
    ((forwardFrom kart v₁f t₂).zip (t₂.map (·.length)))) with hbpdef
  obtain ⟨w, ws, hw⟩ : ∃ w ws, bp = w :: ws := by
    rcases hbpc : bp with - | ⟨w, ws⟩
    · exfalso
      have hl := backwardPass_length kart ((v₁f, s₁.length) ::
        ((forwardFrom kart v₁f t₂).zip (t₂.map (·.length))))
      rw [← hbpdef, hbpc] at hl
      simp at hl
    · exact ⟨w, ws, rfl⟩
  have hA : kart.maxAcceleration = (8 : ℝ) := rfl
  have hwle : w ≤ v₁f := by
    have h1 := backwardPass_headD_le kart v₁f s₁.length
      ((forwardFrom kart v₁f t₂).zip (t₂.map (·.length)))
    rw [← hbpdef, hw] at h1
    simpa using h1
  have hwle4 : w ≤ 4 := by
    refine le_trans hwle (le_trans (min_le_right _ _) ?_)
    calc Real.sqrt (0 ^ 2 + 2 * kart.maxAcceleration * s₁.length)
        ≤ Real.sqrt 16 := Real.sqrt_le_sqrt (by rw [hA, hlen1]; nlinarith)
      _ = 4 := by
          rw [show (16 : ℝ) = 4 ^ 2 by norm_num, Real.sqrt_sq]
          norm_num
  have hwpos : 0 < w := by
    have h1 := backwardPass_headD_pos kart v₁f s₁.length
      ((forwardFrom kart v₁f t₂).zip (t₂.map (·.length)))
      (lt_min hs₁f.2.1 (Real.sqrt_pos.2 (by rw [hA, hlen1]; nlinarith)))
      (by rw [show kart.maxBraking = (10 : ℝ) from rfl, hlen1]; nlinarith)
    rw [← hbpdef, hw] at h1
    simpa using h1
  rw [hw, assignSpeeds, List.zipWith_cons_cons, List.zipWith_cons_cons]
  dsimp only
  rw [if_neg (by norm_num), if_pos (ne_of_gt hs₀f.2.1), if_pos (ne_of_gt hwpos)]
  rw [KartPhysics.estimateLapTime, KartPhysics.estimateLapTime]
  dsimp only
  rw [if_pos hs₀f.2.1, if_pos hwpos]
  -- tail of the assigned list
  have hws_len : ws.length = t₂.length := by
    have hl := backwardPass_length kart ((v₁f, s₁.length) ::
      ((forwardFrom kart v₁f t₂).zip (t₂.map (·.length))))
    rw [← hbpdef, hw] at hl
    simp only [List.length_cons, List.length_zip, forwardFrom_length,
      List.length_map] at hl
    omega
  have htail_mem : ∀ v ∈ ws, 0 ≤ v ∧ v ≤ 70 / 3.6 := by
    intro v hv
    refine hprofb v ?_
    rw [hseg, computeSpeedProfile_cons_cons, ← hv₁f, ← hbpdef, hw]
    exact List.mem_cons_of_mem _ (List.mem_cons_of_mem _ hv)
  have ht₂f : ∀ s ∈ t₂, 0 ≤ s.length ∧ 0 < s.maxSpeed ∧ s.maxSpeed ≤ 70 / 3.6 := by
    intro s hs
    refine hfacts s ?_
    rw [hseg]
    exact List.mem_cons_of_mem _ (List.mem_cons_of_mem _ hs)
  have htail := estimateLapTime_ge (assignSpeeds t₂ ws)
    (assignSpeeds_facts t₂ ws ht₂f htail_mem)
  rw [assignSpeeds_map_length t₂ ws hws_len.symm] at htail
  -- length accounting
  have hsum : s₀.length + (s₁.length + ((t₂.map (·.length)).sum))
      = trackLength (a :: b :: c :: rest) := by
    rw [← segmentsOf_map_length_sum (a :: b :: c :: rest), hseg]
    simp
  -- divide through by the cap
  have hconv : ∀ x : ℝ, x / (70 / 3.6) = x * (9 / 175) := by
    intro x
    rw [div_eq_iff (by norm_num : (70 : ℝ) / 3.6 ≠ 0)]
    norm_num
    ring
  have hT0 : s₀.length / (70 / 3.6) ≤ s₀.length / s₀.maxSpeed :=
    div_le_div_of_nonneg_left hs₀f.1 hs₀f.2.1 hs₀f.2.2
  have hT1 : s₁.length / 4 ≤ s₁.length / w :=
    div_le_div_of_nonneg_left hs₁f.1 hwpos hwle4
  have hEtail : kart.estimateLapTime (List.zipWith
      (fun s v => { s with speed := if v ≠ 0 then v
        else if s.maxSpeed ≠ 0 then s.maxSpeed else 0.1 }) t₂ ws)
      = kart.estimateLapTime (assignSpeeds t₂ ws) := rfl
  rw [hEtail]
  have hexp : trackLength (a :: b :: c :: rest) / (70 / 3.6)
      + distance b c * (1 / 4 - 3.6 / 70)
      = s₀.length / (70 / 3.6) + s₁.length / 4
        + ((t₂.map (·.length)).sum) / (70 / 3.6) := by
    rw [← hsum, hlen1, hconv, hconv, hconv]
    ring
  rw [hexp]
  linarith

/-- Out-of-range lookups return the origin default, so a y-zero list has
y-zero lookups everywhere. -/
theorem getD_yzero {pts : List Point} (h : ∀ p ∈ pts, p.y = 0) (k : ℕ) :
    (pts.getD k default).y = 0 := by
  by_cases hk : k < pts.length
  · rw [List.getD_eq_getElem _ _ hk]
    exact h _ (List.getElem_mem hk)
  · rw [List.getD_eq_getElem?_getD, List.getElem?_eq_none (le_of_not_lt hk)]
    rfl

/-- Catmull-Rom interpolation of x-axis points stays on the x-axis. -/
theorem catmullRom_yzero {p0 p1 p2 p3 : Point} (t : ℝ) (h0 : p0.y = 0)
    (h1 : p1.y = 0) (h2 : p2.y = 0) (h3 : p3.y = 0) :
    (catmullRom p0 p1 p2 p3 t).y = 0 := by
  simp only [catmullRom, h0, h1, h2, h3]
  ring

/-- Resampling samples of an x-axis line stay on the x-axis. -/
theorem smoothSample_yzero {pts : List Point} (h : ∀ p ∈ pts, p.y = 0)
    (spp i s : ℕ) : (smoothSample pts spp i s).y = 0 := by
  rw [smoothSample]
  by_cases hc : i + 2 < pts.length
  · rw [if_pos hc]
    exact catmullRom_yzero _ (getD_yzero h _) (getD_yzero h _) (getD_yzero h _)
      (getD_yzero h _)
  · rw [if_neg hc]
    exact catmullRom_yzero _ (getD_yzero h _) (getD_yzero h _) (getD_yzero h _)
      (getD_yzero h _)

/-- Every element of the dedup fold comes from the accumulator or the
sample list. -/
theorem foldl_dedupPush_mem : ∀ (l acc : List Point) (p : Point),
    p ∈ l.foldl dedupPush acc → p ∈ acc ∨ p ∈ l
  | [], _, _, h => Or.inl h
  | x :: xs, acc, p, h => by
    rw [List.foldl_cons] at h
    rcases foldl_dedupPush_mem xs (dedupPush acc x) p h with h1 | h1
    · rcases hq : acc.getLast? with - | q
      · rw [dedupPush_of_getLast?_none hq] at h1
        simp only [List.mem_cons, List.not_mem_nil, or_false] at h1
        exact Or.inr (by rw [h1]; exact List.mem_cons_self _ _)
      · rw [dedupPush_of_getLast?_some hq] at h1
        by_cases hd : hypot (q.x - x.x) (q.y - x.y) > 0.1
        · rw [if_pos hd] at h1
          rcases List.mem_append.1 h1 with h2 | h2
          · exact Or.inl h2
          · simp only [List.mem_cons, List.not_mem_nil, or_false] at h2
            exact Or.inr (by rw [h2]; exact List.mem_cons_self _ _)
        · rw [if_neg hd] at h1
          exact Or.inl h1
    · exact Or.inr (List.mem_cons_of_mem _ h1)

/-- `smoothLine` of an x-axis line stays on the x-axis. -/
theorem smoothLine_yzero (pts : List Point) (it : ℕ)
    (h : ∀ p ∈ pts, p.y = 0) : ∀ p ∈ smoothLine pts it, p.y = 0 := by
  intro p hp
  simp only [smoothLine] at hp
  by_cases h3 : pts.length < 3
  · rw [if_pos h3] at hp
    exact h p hp
  · rw [if_neg h3] at hp
    rcases List.mem_append.1 hp with h1 | h1
    · rcases foldl_dedupPush_mem _ [] p h1 with h2 | h2
      · simp at h2
      · rw [List.mem_flatMap] at h2
        obtain ⟨i, -, hmem⟩ := h2
        rw [List.mem_map] at hmem
        obtain ⟨s, -, rfl⟩ := hmem
        exact smoothSample_yzero h _ _ _
    · simp only [List.mem_cons, List.not_mem_nil, or_false] at h1
      rw [h1]
      exact getD_yzero h _

/-- Along the x-axis the polyline length dominates the end-to-end
x-span. -/
theorem trackLength_ge_span : ∀ (q : Point) (rest : List Point) (lastP : Point),
    (∀ p ∈ q :: rest, p.y = 0) → (q :: rest).getLast? = some lastP →
    |lastP.x - q.x| ≤ trackLength (q :: rest)
  | q, [], lastP, _, hl => by
    have hq : lastP = q := by
      simpa using hl.symm
    subst hq
    simp [trackLength]
  | q, r :: rs, lastP, hy, hl => by
    rw [trackLength, distance_on_axis q r (hy q (List.mem_cons_self _ _))
      (hy r (List.mem_cons_of_mem _ (List.mem_cons_self _ _)))]
    have hrec := trackLength_ge_span r rs lastP
      (fun p hp => hy p (List.mem_cons_of_mem _ hp))
      (by rw [← List.getLast?_cons_cons]; exact hl)
    have htri : |lastP.x - q.x| ≤ |lastP.x - r.x| + |r.x - q.x| :=
      abs_sub_le _ _ _
    linarith

/-- Math.hypot with a zero second component is the absolute value. -/
theorem hypot_right_zero (a : ℝ) : hypot a 0 = |a| := by
  rw [hypot]
  norm_num [Real.sqrt_sq_eq_abs]

/-- A fresh x-axis sample farther than 0.1 from the kept last sample is
appended by the dedup push. -/
theorem dedupPush_axis (x₁ x₂ : ℝ) (l : List Point)
    (h : l.getLast? = some ⟨x₁, 0⟩) (hgt : |x₁ - x₂| > 0.1) :
    dedupPush l ⟨x₂, 0⟩ = l ++ [⟨x₂, 0⟩] := by
  rw [dedupPush_of_getLast?_some h, if_pos]
  dsimp only
  rw [show (0 : ℝ) - 0 = 0 by norm_num, hypot_right_zero]
  exact hgt

/-- The dedup fold from a three-element accumulator keeps it as the
prefix, whatever is appended afterwards. -/
theorem exists_tail_of_foldl (c0 c1 c2 z : Point) (rest : List Point) :
    ∃ tail, (rest.foldl dedupPush [c0, c1, c2]) ++ [z] = c0 :: c1 :: c2 :: tail := by
  obtain ⟨t, ht⟩ := foldl_dedupPush_append rest [c0, c1, c2] (by simp)
  exact ⟨t ++ [z], by rw [ht]; simp⟩

/-- The first three kept samples of the final resampling of the straight
test line: 0, 8975/11664 and 1225/729 on the x-axis (consecutive gaps
0.769 and 0.911, both above the 0.1 dedup threshold and at most 1). -/
theorem smoothLine_lineCx_shape : ∃ tail : List Point,
    smoothLine lineCx 3 =
      ⟨0, 0⟩ :: ⟨8975 / 11664, 0⟩ :: ⟨1225 / 729, 0⟩ :: tail := by
  have hx0 : smoothSample lineCx 18 0 0 = ⟨0, 0⟩ := by
    apply Point.ext_xy <;> simp [smoothSample, lineCx, catmullRom]
  have hx1 : smoothSample lineCx 18 0 1 = ⟨8975 / 11664, 0⟩ := by
    apply Point.ext_xy <;> simp [smoothSample, lineCx, catmullRom]
    norm_num
  have hx2 : smoothSample lineCx 18 0 2 = ⟨1225 / 729, 0⟩ := by
    apply Point.ext_xy <;> simp [smoothSample, lineCx, catmullRom]
    norm_num
  simp only [smoothLine]
  rw [if_neg (by norm_num [lineCx])]
  rw [show 6 * max 1 3 = 18 by norm_num]
  rw [show lineCx.length - 1 = 2 from rfl]
  rw [show List.range 2 = [0, 1] from rfl]
  rw [show List.range 18 =
    [0, 1, 2, 3, 4, 5, 6, 7, 8, 9, 10, 11, 12, 13, 14, 15, 16, 17] from rfl]
  simp only [List.flatMap_cons, List.flatMap_nil, List.map_cons, List.map_nil,
    List.cons_append, List.nil_append, List.append_nil]
  rw [List.foldl_cons, List.foldl_cons, List.foldl_cons, hx0, hx1, hx2]
  rw [show dedupPush [] (⟨0, 0⟩ : Point) = [⟨0, 0⟩] from rfl]
  have habs1 : |(0 : ℝ) - 8975 / 11664| > 0.1 := by
    rw [abs_sub_comm, abs_of_nonneg (by norm_num : (0 : ℝ) ≤ 8975 / 11664 - 0)]
    norm_num
  have habs2 : |(8975 / 11664 : ℝ) - 1225 / 729| > 0.1 := by
    rw [abs_sub_comm, abs_of_nonneg
      (by norm_num : (0 : ℝ) ≤ 1225 / 729 - 8975 / 11664)]
    norm_num
  rw [dedupPush_axis 0 (8975 / 11664) [⟨0, 0⟩] rfl habs1]
  rw [dedupPush_axis (8975 / 11664) (1225 / 729)
    ([(⟨0, 0⟩ : Point)] ++ [(⟨8975 / 11664, 0⟩ : Point)]) rfl habs2]
  rw [show ([(⟨0, 0⟩ : Point)] ++ [⟨8975 / 11664, 0⟩]) ++ [⟨1225 / 729, 0⟩]
    = [⟨0, 0⟩, ⟨8975 / 11664, 0⟩, ⟨1225 / 729, 0⟩] from rfl]
  exact exists_tail_of_foldl _ _ _ _ _

/-- C1 counterexample: for the straight 3-point line and the constant 1/2
random stream, the annealing loop is stationary, and the final spline
resampling alone strictly worsens the score: the resampled line starts
with two short segments whose standing-start speed profile forces a lap
time above the input's 18/7 score.  The optimizer's returned line thus
scores strictly worse than its input — the "best" the source tracks is
only the last-accepted candidate, and the final smoothing is applied
after the last acceptance. -/
theorem C1_counterexample :
    scoreLine lineCx none <
      scoreLine (optimizeLine lineCx none 40 (fun _ => (1 / 2 : ℝ))) none := by
  rw [optimizeLine_lineCx, scoreLine_lineCx]
  obtain ⟨tail, hshape⟩ := smoothLine_lineCx_shape
  have hy : ∀ p ∈ smoothLine lineCx 3, p.y = 0 := by
    apply smoothLine_yzero
    intro p hp
    simp only [lineCx, List.mem_cons, List.not_mem_nil, or_false] at hp
    rcases hp with rfl | rfl | rfl <;> rfl
  have hlast : (smoothLine lineCx 3).getLast? = some ⟨50, 0⟩ := by
    rw [smoothLine_getLast? lineCx 3 (by norm_num [lineCx])]
    rfl
  rw [scoreLine]
  by_cases h2 : (smoothLine lineCx 3).length < 2
  · rw [if_pos h2]; norm_num
  · rw [if_neg h2]
    by_cases hsi : trackSelfIntersects (smoothLine lineCx 3)
    · rw [if_pos hsi]; norm_num
    · rw [if_neg hsi, if_neg (by push_neg; intro pt _; trivial)]
      have hdev : devPenalty (smoothLine lineCx 3) none = 0 := rfl
      have hsm := smoothPenalty_nonneg (smoothLine lineCx 3)
      have hq12 : distance (⟨8975 / 11664, 0⟩ : Point) ⟨1225 / 729, 0⟩
          = 10625 / 11664 := by
        rw [distance_on_axis ⟨8975 / 11664, 0⟩ ⟨1225 / 729, 0⟩ rfl rfl]
        rw [show ((⟨1225 / 729, 0⟩ : Point).x - (⟨8975 / 11664, 0⟩ : Point).x)
          = (10625 / 11664 : ℝ) by norm_num]
        rw [abs_of_nonneg (by norm_num)]
      have hlb := lapTimeCore_cons3_ge ⟨0, 0⟩ ⟨8975 / 11664, 0⟩ ⟨1225 / 729, 0⟩
        tail (by rw [hq12]; norm_num) (by rw [hq12]; norm_num)
      rw [hq12] at hlb
      rw [← hshape] at hlb
      have hspan : (50 : ℝ) ≤ trackLength (smoothLine lineCx 3) := by
        have h1 := trackLength_ge_span ⟨0, 0⟩
          (⟨8975 / 11664, 0⟩ :: ⟨1225 / 729, 0⟩ :: tail) ⟨50, 0⟩
          (by rw [← hshape]; exact hy) (by rw [← hshape]; exact hlast)
        rw [← hshape] at h1
        rw [show ((⟨50, 0⟩ : Point).x - (⟨0, 0⟩ : Point).x) = (50 : ℝ) by norm_num,
          abs_of_nonneg (by norm_num : (0 : ℝ) ≤ 50)] at h1
        exact h1
      have hdiv : (50 : ℝ) / (70 / 3.6) ≤ trackLength (smoothLine lineCx 3) / (70 / 3.6) :=
        (div_le_div_iff_of_pos_right (by norm_num)).2 hspan
      have h507 : (50 : ℝ) / (70 / 3.6) = 18 / 7 := by norm_num
      have hpos : (0 : ℝ) < (10625 / 11664) * (1 / 4 - 3.6 / 70) := by norm_num
      rw [hdev]
      linarith

/-- C1 amended: the optimizer's tracked score is always the score of the
tracked (last-accepted) candidate, and the returned line is the final
`smoothLine(best, 3)` pass of that last-accepted candidate — no
best-ever candidate is tracked independently of acceptance, and the
returned line's score can exceed the input's. -/
theorem C1_amended (line : List Point) (td : Option TrackData) (iters : ℕ)
    (rand : ℕ → ℝ) (h3 : 3 ≤ line.length) :
    (annealLoop line td iters rand).bestScore =
      scoreLine (annealLoop line td iters rand).best td ∧
    optimizeLine line td iters rand =
      smoothLine (annealLoop line td iters rand).best 3 := by
  refine ⟨?_, by rw [optimizeLine, if_neg (by omega)]⟩
  rw [annealLoop]
  refine foldl_inv (fun st : AnnealState => st.bestScore = scoreLine st.best td)
    _ _ _ rfl ?_
  intro st k hst
  simp only [annealStep]
  split_ifs with h1 h2
  · rfl
  · rfl
  · exact hst

/-- Witness for C1 (amended) on a concrete 3-point line. -/
theorem C1_amended_witness :
    (annealLoop [⟨0, 0⟩, ⟨1, 0⟩, ⟨2, 0⟩] none 0 (fun _ => 0)).bestScore =
      scoreLine (annealLoop [⟨0, 0⟩, ⟨1, 0⟩, ⟨2, 0⟩] none 0 (fun _ => 0)).best none ∧
    optimizeLine [⟨0, 0⟩, ⟨1, 0⟩, ⟨2, 0⟩] none 0 (fun _ => 0) =
      smoothLine (annealLoop [⟨0, 0⟩, ⟨1, 0⟩, ⟨2, 0⟩] none 0 (fun _ => 0)).best 3 :=
  C1_amended [⟨0, 0⟩, ⟨1, 0⟩, ⟨2, 0⟩] none 0 (fun _ => 0) (by norm_num)

end
